import Mathlib

/-!
Verification development for the ProfitBot pipeline.

The definitions below are a shallow embedding of the repository's core
functions, translated from the Python source:

* `src/utils/clean_listings.py` — `clean_price`, `get_exclusion_patterns`,
  `is_relevant_listing`, `remove_duplicates`;
* `src/utils/ebay_comparison.py` — `EbayScraper._clean_price`,
  `normalize_product_name`, the per-item body of
  `analyze_profit_opportunities` (here `analyzeItem`) and its final ranking
  step (here `rankResults`);
* `src/scraper/donedeal_scraper.py` — `extract_listings`.

Modelling conventions: Python strings are `List Char` (ASCII model of the
character classes `\w`, `\s`, `[a-zA-Z]`, `\d`; the scraped data is ASCII),
Python floats are `ℚ` with exact arithmetic, Python `None` is `Option`,
and the Selenium driver is a pure function from the page number to the
outcome of loading that page.  Loops are folds, or fuel-indexed step
functions where the Python loop is `while True`.
-/

namespace ProfitBot

/-- Whitespace characters of Python's `str.strip` and of the regex class
`\s` (ASCII model). -/
def pySpace (c : Char) : Bool :=
  c = ' ' || c = '\t' || c = '\n' || c = '\r' || c = '\x0b' || c = '\x0c'

/-- Characters of the regex class `\w` (ASCII model): letters, digits and
the underscore. -/
def wordChar (c : Char) : Bool :=
  c.isAlpha || c.isDigit || c = '_'

/-- Python `str.strip()`: drop leading and trailing whitespace. -/
def pyStrip (l : List Char) : List Char :=
  ((l.dropWhile pySpace).reverse.dropWhile pySpace).reverse

/-- Numeric value of a list of decimal digit characters. -/
def digitsVal (ds : List Char) : ℕ :=
  ds.foldl (fun a c => 10 * a + (c.toNat - 48)) 0

/-- Python substring test `w in s`. -/
def containsSub (w : List Char) : List Char → Bool
  | [] => w.isEmpty
  | c :: rest => w.isPrefixOf (c :: rest) || containsSub w rest

/-- The part of `s` before the first occurrence of `w`; the whole of `s`
when `w` does not occur.  This is Python's `s.split(w)[0]` for nonempty
`w`. -/
def takeUntilSub (w : List Char) : List Char → List Char
  | [] => []
  | c :: rest => if w.isPrefixOf (c :: rest) then [] else c :: takeUntilSub w rest

/-- Fuel-indexed worker for `strReplace`.  Each recursive call consumes at
least one character of the subject, so fuel equal to the subject's length
is always sufficient; the fuel only makes the recursion structural. -/
def strReplaceF (w : List Char) : ℕ → List Char → List Char
  | 0, s => s
  | _ + 1, [] => []
  | f + 1, c :: rest =>
    if !w.isEmpty && w.isPrefixOf (c :: rest) then
      strReplaceF w f (rest.drop (w.length - 1))
    else c :: strReplaceF w f rest

/-- Python `s.replace(w, "")` for nonempty `w`: delete the left-to-right
non-overlapping occurrences of `w` in `s`. -/
def strReplace (w s : List Char) : List Char :=
  strReplaceF w s.length s

/-- Worker for `collapseWS`; the flag records whether the previous kept
position was inside a whitespace run. -/
def collapseWSAux (prevSpace : Bool) : List Char → List Char
  | [] => []
  | c :: rest =>
    if pySpace c then
      if prevSpace then collapseWSAux true rest
      else ' ' :: collapseWSAux true rest
    else c :: collapseWSAux false rest

/-- The regex substitution `re.sub(r"\s+", " ", s)`: every maximal run of
whitespace becomes one space. -/
def collapseWS (l : List Char) : List Char :=
  collapseWSAux false l

/-! ### `clean_price` (src/utils/clean_listings.py)

`clean_price` removes the characters `€ $ £ ,`, removes ASCII letters,
strips the ends, and applies Python's `float`; failure and an empty
remainder give `None`.  Since no letters survive the stripping, the
`float` grammar that can apply has no exponent and no `inf`/`nan` form:
an optional sign, then digits with single underscores between digits and
at most one dot. -/

/-- Digit-part tail of the Python float grammar: each character is a
digit, or an underscore that does not follow another underscore and is
followed by a digit.  The flag records whether the previous character was
an underscore. -/
def digitPartF (prevUnderscore : Bool) : List Char → Bool
  | [] => !prevUnderscore
  | c :: rest =>
    if c = '_' then !prevUnderscore && digitPartF true rest
    else c.isDigit && digitPartF false rest

/-- A `digitpart` of the Python float grammar: `digit (("_")? digit)*`. -/
def isDigitPart (l : List Char) : Bool :=
  match l with
  | [] => false
  | c :: rest => c.isDigit && digitPartF false rest

/-- Unsigned body of a Python float literal (no exponent): either a plain
digitpart, or two optional digitparts around a single dot, not both
absent. -/
def isFloatBody (l : List Char) : Bool :=
  if l.contains '.' then
    let a := l.takeWhile (fun c => !(c = '.'))
    let b := (l.dropWhile (fun c => !(c = '.'))).tail
    !(b.contains '.') && (a.isEmpty || isDigitPart a) && (b.isEmpty || isDigitPart b) &&
      !(a.isEmpty && b.isEmpty)
  else isDigitPart l

/-- Value of an integer part `a` and fraction digits `b`. -/
def ratOfParts (a b : List Char) : ℚ :=
  ((digitsVal a : ℚ) * 10 ^ b.length + (digitsVal b : ℚ)) / 10 ^ b.length

/-- Value of an unsigned float body (underscores dropped, split at the
dot). -/
def floatBodyVal (l : List Char) : ℚ :=
  ratOfParts
    ((l.filter (fun c => !(c = '_'))).takeWhile (fun c => !(c = '.')))
    (((l.filter (fun c => !(c = '_'))).dropWhile (fun c => !(c = '.'))).tail)

/-- A Python float literal: optional sign, then a float body. -/
def isFloatToken (l : List Char) : Bool :=
  match l with
  | '+' :: r => isFloatBody r
  | '-' :: r => isFloatBody r
  | _ => isFloatBody l

/-- Value of a Python float literal. -/
def floatTokenVal (l : List Char) : ℚ :=
  match l with
  | '+' :: r => floatBodyVal r
  | '-' :: r => - floatBodyVal r
  | _ => floatBodyVal l

/-- Python `float(s)` on a letter-free string, `none` on a parse error. -/
def pyFloat? (l : List Char) : Option ℚ :=
  if isFloatToken l then some (floatTokenVal l) else none

/-- The string that `clean_price` hands to `float`: the input with
`€ $ £ ,` removed, ASCII letters removed, and the ends stripped. -/
def cleanPriceRemainder (s : String) : List Char :=
  pyStrip ((s.data.filter (fun c => !(c = '€' || c = '$' || c = '£' || c = ','))).filter
    (fun c => !c.isAlpha))

/-- `clean_price` from `src/utils/clean_listings.py`. -/
def clean_price (s : String) : Option ℚ :=
  if (cleanPriceRemainder s).isEmpty then none
  else pyFloat? (cleanPriceRemainder s)

/-! ### `EbayScraper._clean_price` (src/utils/ebay_comparison.py)

This parser removes `£ $ € ,` and whitespace, cuts at the first lowercase
`to` when one occurs in the lowercased remainder, and takes the first
match of the regex `(\d+\.?\d*)`. -/

/-- First match of the regex `(\d+\.?\d*)` in `l`, as a rational: the
first maximal digit run, together with the fraction digits directly after
a dot that directly follows it. -/
def firstNumber (l : List Char) : Option ℚ :=
  match l.dropWhile (fun c => !c.isDigit) with
  | [] => none
  | c :: rest =>
    match (c :: rest).dropWhile Char.isDigit with
    | '.' :: r2 => some (ratOfParts ((c :: rest).takeWhile Char.isDigit) (r2.takeWhile Char.isDigit))
    | _ => some ((digitsVal ((c :: rest).takeWhile Char.isDigit) : ℚ))

/-- `EbayScraper._clean_price`: strip `£ $ € ,` and whitespace, cut at a
lowercase `to` (the test is on the lowercased string, the cut on the
original), then take the first number found. -/
def ebay_clean_price (priceText : String) : Option ℚ :=
  firstNumber
    (if containsSub ['t', 'o']
        ((priceText.data.filter (fun c => !(c = '£' || c = '$' || c = '€' || c = ',' || pySpace c))).map Char.toLower) then
      takeUntilSub ['t', 'o']
        (priceText.data.filter (fun c => !(c = '£' || c = '$' || c = '€' || c = ',' || pySpace c)))
    else
      priceText.data.filter (fun c => !(c = '£' || c = '$' || c = '€' || c = ',' || pySpace c)))

/-! ### `normalize_product_name` (src/utils/ebay_comparison.py)

Lowercase, delete the noise phrases in order, turn non-`\w`-non-`\s`
characters into spaces, collapse whitespace and strip; then either extract
the iPhone model pattern, or delete the color words and collapse again. -/

/-- The `noise_words` list, in source order.  Order matters because the
replacements are applied sequentially. -/
def noiseWords : List String :=
  ["excellent condition", "good condition", "fair condition", "poor condition",
   "brand new", "new", "used", "refurbished", "unlocked", "locked",
   "with box", "boxed", "unboxed", "no box",
   "charger included", "original box", "accessories",
   "mint condition", "like new", "barely used",
   "perfect condition", "great condition", "working",
   "apple", "genuine", "original", "official"]

/-- The `colors` list, in source order. -/
def colors : List String :=
  ["black", "white", "red", "blue", "green", "yellow", "purple", "pink",
   "silver", "gold", "rose", "space", "gray", "grey"]

/-- Greedy run of the regex piece `(?:pro|plus|max|mini)*`: the matched
characters and the remainder.  Each repetition consumes at least three
characters, so fuel equal to the input length suffices. -/
def takeQualsF : ℕ → List Char → List Char × List Char
  | 0, s => ([], s)
  | f + 1, s =>
    if ['p', 'r', 'o'].isPrefixOf s then
      let q := takeQualsF f (s.drop 3)
      (['p', 'r', 'o'] ++ q.1, q.2)
    else if ['p', 'l', 'u', 's'].isPrefixOf s then
      let q := takeQualsF f (s.drop 4)
      (['p', 'l', 'u', 's'] ++ q.1, q.2)
    else if ['m', 'a', 'x'].isPrefixOf s then
      let q := takeQualsF f (s.drop 3)
      (['m', 'a', 'x'] ++ q.1, q.2)
    else if ['m', 'i', 'n', 'i'].isPrefixOf s then
      let q := takeQualsF f (s.drop 4)
      (['m', 'i', 'n', 'i'] ++ q.1, q.2)
    else ([], s)

/-- Match of `iphone\s*(\d+\s*(?:pro|plus|max|mini)*)\s*(\d+gb)?` at the
start of `s`, returning groups 1 and 2 (group 2 as `[]` when absent, as
the source immediately replaces a missing group with `""`).  All
quantifiers are greedy; since everything after group 1's digits is
optional, greedy matching is complete and no backtracking can change the
result. -/
def iphoneMatchAt (s : List Char) : Option (List Char × List Char) :=
  if ['i', 'p', 'h', 'o', 'n', 'e'].isPrefixOf s then
    let s2 := (s.drop 6).dropWhile pySpace
    let ds := s2.takeWhile Char.isDigit
    if ds.isEmpty then none
    else
      let s3 := s2.dropWhile Char.isDigit
      let sp2 := s3.takeWhile pySpace
      let s4 := s3.dropWhile pySpace
      let q := takeQualsF s4.length s4
      let s6 := q.2.dropWhile pySpace
      let ds2 := s6.takeWhile Char.isDigit
      let s7 := s6.dropWhile Char.isDigit
      (ds ++ sp2 ++ q.1,
       if !ds2.isEmpty && ['g', 'b'].isPrefixOf s7 then ds2 ++ ['g', 'b'] else [])
  else none

/-- `re.search` for the iPhone pattern: the leftmost position with a
match.  The pattern starts with the literal `iphone` followed by a
mandatory digit, so scanning position by position is faithful. -/
def iphoneSearch : List Char → Option (List Char × List Char)
  | [] => none
  | c :: rest =>
    match iphoneMatchAt (c :: rest) with
    | some m => some m
    | none => iphoneSearch rest

/-- Color-removal tail of `normalize_product_name`: delete the color
words in order, collapse whitespace and strip. -/
def colorStrip (l : List Char) : List Char :=
  pyStrip (collapseWS (colors.foldl (fun s w => strReplace w.data s) l))

/-- The noise-stripped, punctuation-collapsed intermediate string of
`normalize_product_name` (the value of `normalized` at line 192 of the
source). -/
def normalizeCore (title : String) : List Char :=
  pyStrip (collapseWS
    ((noiseWords.foldl (fun s w => strReplace w.data s) (title.data.map Char.toLower)).map
      (fun c => if wordChar c || pySpace c then c else ' ')))

/-- `normalize_product_name`. -/
def normalize_product_name (title : String) : String :=
  if title.data.isEmpty then ""
  else if containsSub ['i', 'p', 'h', 'o', 'n', 'e'] (normalizeCore title) then
    match iphoneSearch (normalizeCore title) with
    | some m =>
      String.mk (pyStrip (['i', 'p', 'h', 'o', 'n', 'e', ' '] ++ pyStrip m.1 ++ [' '] ++ m.2))
    | none => String.mk (colorStrip (normalizeCore title))
  else String.mk (colorStrip (normalizeCore title))

/-! ### Relevance filtering (src/utils/clean_listings.py)

Every exclusion pattern in the source is an alternation of literal words
or phrases, each wrapped in `\b` boundaries, searched case-insensitively
in the lowercased title.  A pattern is modelled as the list of its
alternative literals; `\bw\b` matches iff `w` occurs with no `\w`
character directly before or after the occurrence (every literal starts
and ends with a `\w` character). -/

/-- Does `w` occur at the head of `s` with a word boundary after it? -/
def wordAt (w s : List Char) : Bool :=
  w.isPrefixOf s &&
    (match s.drop w.length with
     | [] => true
     | c :: _ => !wordChar c)

/-- Worker for `hasWord`; `prev` is the character before the current
position (`none` at the start of the string). -/
def hasWordAux (w : List Char) (prev : Option Char) : List Char → Bool
  | [] => false
  | c :: rest =>
    ((match prev with
      | none => true
      | some p => !wordChar p) && wordAt w (c :: rest)) ||
    hasWordAux w (some c) rest

/-- `re.search(r"\bw\b", s)` for a literal `w` that starts and ends with
word characters. -/
def hasWord (w s : List Char) : Bool :=
  hasWordAux w none s

/-- One alternation pattern matches if any of its literals occurs with
boundaries. -/
def groupMatches (g : List String) (s : List Char) : Bool :=
  g.any (fun w => hasWord w.data s)

/-- `get_exclusion_patterns`: the nine alternation patterns, in source
order, as lists of their literals. -/
def get_exclusion_patterns : List (List String) :=
  [["car", "bmw", "mercedes", "audi", "volkswagen", "ford", "toyota", "honda",
    "nissan", "hyundai", "kia", "mazda", "volvo", "peugeot", "renault", "citroen",
    "opel", "skoda", "seat", "fiat", "alfa romeo", "porsche", "ferrari",
    "lamborghini", "bentley", "rolls royce"],
   ["suv", "sedan", "hatchback", "estate", "coupe", "convertible", "diesel",
    "petrol", "hybrid", "electric"],
   ["automatic", "manual", "transmission", "engine", "mot", "nct", "tax",
    "mileage", "km", "miles"],
   ["case", "cover", "screen protector", "charger", "cable", "stand", "holder"],
   ["headphones", "earphones", "speaker", "power bank", "adapter"],
   ["ipad", "tablet", "macbook", "laptop", "computer", "tv", "television",
    "monitor", "camera", "drone"],
   ["house", "apartment", "flat", "room", "property", "rent", "lease", "mortgage"],
   ["job", "work", "service", "repair", "installation", "delivery"],
   ["dog", "cat", "horse", "puppy", "kitten", "pet", "animal"]]

/-- The extra exclusion patterns applied when the keyword is exactly
`iphone`. -/
def iphoneExclusionPatterns : List (List String) :=
  [["case", "cover", "screen protector"],
   ["ipad", "tablet"],
   ["charger", "cable", "adapter"],
   ["headphones", "earphones"]]

/-- `is_relevant_listing(title, search_keyword, exclusion_patterns)`:
empty title or keyword is irrelevant; the lowercased keyword must be a
substring of the lowercased title; no exclusion pattern may match; and
for the keyword `iphone` the extra accessory patterns are also checked. -/
def is_relevant_listing (title searchKeyword : String) (patterns : List (List String)) : Bool :=
  if title.data.isEmpty || searchKeyword.data.isEmpty then false
  else if !containsSub (searchKeyword.data.map Char.toLower) (title.data.map Char.toLower) then false
  else if patterns.any (fun g => groupMatches g (title.data.map Char.toLower)) then false
  else if searchKeyword.data.map Char.toLower = ['i', 'p', 'h', 'o', 'n', 'e'] then
    !(iphoneExclusionPatterns.any (fun g => groupMatches g (title.data.map Char.toLower)))
  else true

/-! ### `remove_duplicates` (src/utils/clean_listings.py)

The DataFrame is a list of listing rows; `drop_duplicates(keep="first")`
keeps, for each key value, the earliest row carrying it. -/

/-- One row of the listings table. -/
structure ListingRow where
  title : String
  price : String
  location : String
  url : String
deriving DecidableEq

/-- The helper column `title_clean`: lowercased, stripped title. -/
def titleClean (r : ListingRow) : String :=
  String.mk (pyStrip (r.title.data.map Char.toLower))

/-- Worker for `dedupByKey`; `seenKeys` holds the key values kept so
far. -/
def dedupByKeyAux (key : ListingRow → String) (seenKeys : List String) :
    List ListingRow → List ListingRow
  | [] => []
  | r :: rest =>
    if key r ∈ seenKeys then dedupByKeyAux key seenKeys rest
    else r :: dedupByKeyAux key (key r :: seenKeys) rest

/-- `df.drop_duplicates(subset=[k], keep="first")`: keep the first row of
each key class, in order. -/
def dedupByKey (key : ListingRow → String) (rows : List ListingRow) : List ListingRow :=
  dedupByKeyAux key [] rows

/-- `remove_duplicates`: first deduplicate by `url`, then by the cleaned
title.  (The early return on an empty frame is the same function.) -/
def remove_duplicates (rows : List ListingRow) : List ListingRow :=
  dedupByKey titleClean (dedupByKey (fun r => r.url) rows)

/-! ### The arbitrage evaluator (src/utils/ebay_comparison.py)

The per-item body of `analyze_profit_opportunities`: one `ProductAggregate`
row from `group_similar_items` plus the eBay sold listings collected for
it produce one analysis row.  Python's `round(x, n)` is round-half-to-even
at `n` decimal digits (on the exact rational value in this model); the
`analysis_date` column is wall-clock output and is not modelled. -/

/-- One row of `group_similar_items`'s output. -/
structure ProductAggregate where
  search_term : String
  representative_title : String
  avg_donedeal_price : ℚ
  min_donedeal_price : ℚ
  max_donedeal_price : ℚ
  listing_count : ℕ
  location : String
  url : String

/-- One sold listing returned by `EbayScraper.scrape_sold_listings`; only
the fields the evaluator reads are kept. -/
structure SoldListing where
  title : String
  price : ℚ
  currency : String

/-- The static `conversion_rates = {'£': 1.15, '$': 0.85, '€': 1.0}`. -/
def conversion_rates : List (String × ℚ) :=
  [("£", 23 / 20), ("$", 17 / 20), ("€", 1)]

/-- `conversion_rates.get(c, 1.0)`. -/
def conversionRate (c : String) : ℚ :=
  (((conversion_rates.find? (fun p => p.1 = c)).map Prod.snd).getD 1)

/-- Python `sum` on rationals. -/
def listSum (l : List ℚ) : ℚ :=
  l.foldl (· + ·) 0

/-- Mean of a list (only applied to nonempty lists, as in the source). -/
def listMean (l : List ℚ) : ℚ :=
  listSum l / l.length

/-- Python `min` of a nonempty list (the `[]` case never arises in the
source and is given an arbitrary value). -/
def listMin : List ℚ → ℚ
  | [] => 0
  | x :: xs => xs.foldl min x

/-- Python `max` of a nonempty list. -/
def listMax : List ℚ → ℚ
  | [] => 0
  | x :: xs => xs.foldl max x

/-- Round-half-to-even of a rational to an integer, as Python's
`round`. -/
def halfEven (x : ℚ) : ℤ :=
  if x - ⌊x⌋ < 1 / 2 then ⌊x⌋
  else if 1 / 2 < x - ⌊x⌋ then ⌊x⌋ + 1
  else if 2 ∣ ⌊x⌋ then ⌊x⌋ else ⌊x⌋ + 1

/-- Python `round(x, n)`. -/
def pyRound (x : ℚ) (n : ℕ) : ℚ :=
  (halfEven (x * 10 ^ n) : ℚ) / 10 ^ n

/-- One row of the analysis results table. -/
structure AnalysisRow where
  item_title : String
  search_term : String
  donedeal_avg_price : ℚ
  donedeal_min_price : ℚ
  donedeal_max_price : ℚ
  donedeal_listings : ℕ
  donedeal_location : String
  donedeal_url : String
  ebay_avg_price_eur : Option ℚ
  ebay_min_price_eur : Option ℚ
  ebay_max_price_eur : Option ℚ
  ebay_sold_count : ℕ
  profit_potential_eur : Option ℚ
  profit_percentage : Option ℚ
  opportunity_level : String

/-- The opportunity tier chosen from the (unrounded) profit
percentage. -/
def opportunityLevel (p : ℚ) : String :=
  if p ≥ 50 then "🟢 EXCELLENT"
  else if p ≥ 25 then "🟡 GOOD"
  else if p ≥ 10 then "🟠 MODERATE"
  else "🔴 LOW"

/-- The eBay prices of `sold` converted to EUR through the static
table. -/
def eurPrices (sold : List SoldListing) : List ℚ :=
  sold.map (fun l => l.price * conversionRate l.currency)

/-- The unrounded profit amount: EUR mean minus the source mean. -/
def profitPotential (item : ProductAggregate) (sold : List SoldListing) : ℚ :=
  listMean (eurPrices sold) - item.avg_donedeal_price

/-- The unrounded profit percentage, `0` when the source mean is not
positive. -/
def profitPercentage (item : ProductAggregate) (sold : List SoldListing) : ℚ :=
  if item.avg_donedeal_price > 0 then
    profitPotential item sold / item.avg_donedeal_price * 100
  else 0

/-- The loop body of `analyze_profit_opportunities` for one unique item:
the appended result row.  With sold listings present, `eur_prices` is
also nonempty, so the source's inner `if eur_prices:` always takes its
then-branch. -/
def analyzeItem (item : ProductAggregate) (sold : List SoldListing) : AnalysisRow :=
  if sold.isEmpty then
    { item_title := item.representative_title
      search_term := item.search_term
      donedeal_avg_price := pyRound item.avg_donedeal_price 2
      donedeal_min_price := pyRound item.min_donedeal_price 2
      donedeal_max_price := pyRound item.max_donedeal_price 2
      donedeal_listings := item.listing_count
      donedeal_location := item.location
      donedeal_url := item.url
      ebay_avg_price_eur := none
      ebay_min_price_eur := none
      ebay_max_price_eur := none
      ebay_sold_count := 0
      profit_potential_eur := none
      profit_percentage := none
      opportunity_level := "❌ NO DATA" }
  else
    { item_title := item.representative_title
      search_term := item.search_term
      donedeal_avg_price := pyRound item.avg_donedeal_price 2
      donedeal_min_price := pyRound item.min_donedeal_price 2
      donedeal_max_price := pyRound item.max_donedeal_price 2
      donedeal_listings := item.listing_count
      donedeal_location := item.location
      donedeal_url := item.url
      ebay_avg_price_eur := some (pyRound (listMean (eurPrices sold)) 2)
      ebay_min_price_eur := some (pyRound (listMin (eurPrices sold)) 2)
      ebay_max_price_eur := some (pyRound (listMax (eurPrices sold)) 2)
      ebay_sold_count := sold.length
      profit_potential_eur := some (pyRound (profitPotential item sold) 2)
      profit_percentage := some (pyRound (profitPercentage item sold) 1)
      opportunity_level := opportunityLevel (profitPercentage item sold) }

/-! ### The result ranking (src/utils/ebay_comparison.py, lines 367-369)

`results_df.sort_values('profit_percentage_temp', ascending=False)` after
`fillna(-999)`.  pandas (`pandas/core/sorting.py`, `nargsort`, here with
no missing keys because of the preceding `fillna`) computes the
descending order by reversing the key array, running the kernel argsort
on the reversed keys, composing the result with the reversed index range
and reversing that indexer, then taking the rows along it.  The kernel of
the default `kind='quicksort'` is numpy's introsort
(`numpy/core/src/npysort/quicksort.c.src`, `aquicksort` for doubles,
with `aheapsort` of `heapsort.c.src` as its depth-limit fallback),
translated below loop by loop with explicit fuel; each fuel argument
strictly exceeds the iteration count of the loop it feeds, so on every
input the translation runs the loops exactly as the C does.  This kernel
is not stable: its partition exchange scans swap equal elements, so runs
over more than `SMALL_QUICKSORT = 15` elements can reorder ties, and
only sub-ranges that small are handled by the (stable) insertion-sort
path.  `DOUBLE_LT(a, b)` is `a < b || (b != b && a == a)`; the NaN
clause never fires here because `fillna(-999)` removes all missing
values, so the comparison is plain `<` on the (exact rational) keys. -/

/-- The sort key: the profit percentage with missing values filled with
`-999`. -/
def sortKey (r : AnalysisRow) : ℚ :=
  r.profit_percentage.getD (-999)

/-- The float comparison `DOUBLE_LT` on NaN-free keys. -/
def npLT (a b : ℚ) : Bool :=
  decide (a < b)

/-- `npy_get_msb`: the number of times the argument can be halved before
reaching zero (`while (unum >>= 1) depth_limit++`), fuel-indexed. -/
def npMsbF : ℕ → ℕ → ℕ
  | 0, _ => 0
  | f + 1, n => if n / 2 = 0 then 0 else npMsbF f (n / 2) + 1

/-- `npy_get_msb`. -/
def npMsb (n : ℕ) : ℕ :=
  npMsbF n n

/-- The key of the element `tosort[i]` points at: `v[tosort[i]]`. -/
def keyAt (v : List ℚ) (ts : List ℕ) (i : ℕ) : ℚ :=
  v.getD (ts.getD i 0) 0

/-- `INTP_SWAP(tosort[i], tosort[j])`. -/
def tsSwap (ts : List ℕ) (i j : ℕ) : List ℕ :=
  (ts.set i (ts.getD j 0)).set j (ts.getD i 0)

/-- The 1-offset heap view of `aheapsort` (`a = tosort - 1` over the
sub-range beginning at `lo`): the value `a[k]`. -/
def aGet (ts : List ℕ) (lo k : ℕ) : ℕ :=
  ts.getD (lo + k - 1) 0

/-- Writing `a[k]` in the 1-offset heap view. -/
def aPut (ts : List ℕ) (lo k x : ℕ) : List ℕ :=
  ts.set (lo + k - 1) x

/-- The sift loop shared by both phases of `aheapsort`:
`for (...; j <= n;) { if (j < n && LT(v[a[j]], v[a[j+1]])) j++;
if (LT(v[tmp], v[a[j]])) { a[i] = a[j]; i = j; j += j; } else break; }
a[i] = tmp;`. -/
def aheapSift (v : List ℚ) (lo tmp nn : ℕ) : ℕ → List ℕ → ℕ → ℕ → List ℕ
  | 0, ts, i, _ => aPut ts lo i tmp
  | f + 1, ts, i, j =>
    if j ≤ nn then
      let j2 := if j < nn && npLT (v.getD (aGet ts lo j) 0) (v.getD (aGet ts lo (j + 1)) 0)
        then j + 1 else j
      if npLT (v.getD tmp 0) (v.getD (aGet ts lo j2) 0) then
        aheapSift v lo tmp nn f (aPut ts lo i (aGet ts lo j2)) j2 (j2 + j2)
      else aPut ts lo i tmp
    else aPut ts lo i tmp

/-- The heap-building phase of `aheapsort`:
`for (l = n >> 1; l > 0; --l)`. -/
def aheapHeapify (v : List ℚ) (lo nn : ℕ) : ℕ → List ℕ → ℕ → List ℕ
  | 0, ts, _ => ts
  | f + 1, ts, l =>
    if l = 0 then ts
    else aheapHeapify v lo nn f (aheapSift v lo (aGet ts lo l) nn (nn + 2) ts l (l * 2)) (l - 1)

/-- The extraction phase of `aheapsort`: `for (; n > 1;)` with
`tmp = a[n]; a[n] = a[1]; n -= 1;` before each sift from the root. -/
def aheapExtract (v : List ℚ) (lo : ℕ) : ℕ → List ℕ → ℕ → List ℕ
  | 0, ts, _ => ts
  | f + 1, ts, nn =>
    if nn ≤ 1 then ts
    else
      let tmp := aGet ts lo nn
      let ts2 := aPut ts lo nn (aGet ts lo 1)
      aheapExtract v lo f (aheapSift v lo tmp (nn - 1) (nn + 2) ts2 1 2) (nn - 1)

/-- `aheapsort` on the sub-range of `tosort` of length `nn` starting at
index `lo`. -/
def aheapsort (v : List ℚ) (ts : List ℕ) (lo nn : ℕ) : List ℕ :=
  aheapExtract v lo (nn + 1) (aheapHeapify v lo nn (nn + 1) ts (nn / 2)) nn

/-- `do ++pi; while (LT(v[*pi], vp));` — the index where the upward scan
stops. -/
def scanUpF (v : List ℚ) (ts : List ℕ) (vp : ℚ) : ℕ → ℕ → ℕ
  | 0, i => i + 1
  | f + 1, i =>
    if npLT (keyAt v ts (i + 1)) vp then scanUpF v ts vp f (i + 1) else i + 1

/-- `do --pj; while (LT(vp, v[*pj]));` — the index where the downward
scan stops. -/
def scanDownF (v : List ℚ) (ts : List ℕ) (vp : ℚ) : ℕ → ℕ → ℕ
  | 0, j => j - 1
  | f + 1, j =>
    if npLT vp (keyAt v ts (j - 1)) then scanDownF v ts vp f (j - 1) else j - 1

/-- The partition exchange loop of `aquicksort`: scan up, scan down,
stop when the scans cross, otherwise swap and continue.  Returns the
reordered `tosort` and the final `pi`. -/
def partLoopF (v : List ℚ) (vp : ℚ) : ℕ → List ℕ → ℕ → ℕ → List ℕ × ℕ
  | 0, ts, i, _ => (ts, i)
  | f + 1, ts, i, j =>
    let i2 := scanUpF v ts vp (ts.length + 1) i
    let j2 := scanDownF v ts vp (ts.length + 1) j
    if i2 ≥ j2 then (ts, i2)
    else partLoopF v vp f (tsSwap ts i2 j2) i2 j2

/-- One partition of `tosort[pl..pr]`: median-of-three pivot selection
(with the conditional swaps of the source), pivot moved to `pr - 1`, the
exchange loop started at `pi = pl`, `pj = pr - 1`, and the final swap of
`tosort[pi]` with `tosort[pr - 1]`.  Returns the reordered `tosort` and
the pivot position `pi`. -/
def npPartition (v : List ℚ) (ts : List ℕ) (pl pr : ℕ) : List ℕ × ℕ :=
  let pm := pl + (pr - pl) / 2
  let ts1 := if npLT (keyAt v ts pm) (keyAt v ts pl) then tsSwap ts pm pl else ts
  let ts2 := if npLT (keyAt v ts1 pr) (keyAt v ts1 pm) then tsSwap ts1 pr pm else ts1
  let ts3 := if npLT (keyAt v ts2 pm) (keyAt v ts2 pl) then tsSwap ts2 pm pl else ts2
  let vp := keyAt v ts3 pm
  let ts4 := tsSwap ts3 pm (pr - 1)
  let r := partLoopF v vp (pr + 1) ts4 pl (pr - 1)
  (tsSwap r.1 r.2 (pr - 1), r.2)

/-- The shifting inner loop of the small-range insertion sort:
`while (pj > pl && LT(vp, v[*pk])) { *pj-- = *pk--; } *pj = vi;`. -/
def insShiftF (v : List ℚ) (pl vi : ℕ) (vp : ℚ) : ℕ → List ℕ → ℕ → List ℕ
  | 0, ts, j => ts.set j vi
  | f + 1, ts, j =>
    if j > pl && npLT vp (v.getD (ts.getD (j - 1) 0) 0) then
      insShiftF v pl vi vp f (ts.set j (ts.getD (j - 1) 0)) (j - 1)
    else ts.set j vi

/-- The small-range insertion sort of `aquicksort`:
`for (pi = pl + 1; pi <= pr; ++pi)`. -/
def insSortF (v : List ℚ) (pl pr : ℕ) : ℕ → List ℕ → ℕ → List ℕ
  | 0, ts, _ => ts
  | f + 1, ts, i =>
    if i ≤ pr then
      let vi := ts.getD i 0
      insSortF v pl pr f (insShiftF v pl vi (v.getD vi 0) (i + 1) ts i) (i + 1)
    else ts

/-- The driver loop of `aquicksort`: partition while the range is longer
than `SMALL_QUICKSORT = 15` (handing the range to `aheapsort` once the
depth budget `2 * npy_get_msb(num)` is spent, the budget being counted
down by the test `depth_limit-- < 0`), push the larger half, recurse on
the smaller, finish small ranges with the insertion sort, and pop the
pending range from the stack. -/
def npQSLoop (v : List ℚ) : ℕ → List ℕ → ℕ → ℕ → List (ℕ × ℕ) → ℤ → List ℕ
  | 0, ts, _, _, _, _ => ts
  | f + 1, ts, pl, pr, stack, depth =>
    if pr - pl > 15 then
      if depth < 0 then
        let ts2 := aheapsort v ts pl (pr - pl + 1)
        match stack with
        | [] => ts2
        | (l2, r2) :: rest => npQSLoop v f ts2 l2 r2 rest (depth - 1)
      else
        let r := npPartition v ts pl pr
        if r.2 - pl < pr - r.2 then
          npQSLoop v f r.1 pl (r.2 - 1) ((r.2 + 1, pr) :: stack) (depth - 1)
        else
          npQSLoop v f r.1 (r.2 + 1) pr ((pl, r.2 - 1) :: stack) (depth - 1)
    else
      let ts2 := insSortF v pl pr (pr + 1 - pl) ts (pl + 1)
      match stack with
      | [] => ts2
      | (l2, r2) :: rest => npQSLoop v f ts2 l2 r2 rest depth

/-- `numpy.argsort(v, kind='quicksort')`: `aquicksort` run on
`tosort = arange(len(v))`. -/
def npArgsort (v : List ℚ) : List ℕ :=
  npQSLoop v (2 * v.length + 4) (List.range v.length) 0 (v.length - 1) []
    (2 * (npMsb v.length : ℤ))

/-- The indexer pandas's `nargsort` builds for `ascending=False` from a
kernel argsort result `p` over the reversed keys:
`non_nan_idx[::-1][p][::-1]` with `non_nan_idx = arange(n)`, that is,
`p` mapped through `i ↦ n - 1 - i` and reversed. -/
def descIndexer (n : ℕ) (p : List ℕ) : List ℕ :=
  (p.map (fun i => n - 1 - i)).reverse

/-- The key sequence a candidate argsort result gathers:
`[v[p[0]], v[p[1]], ...]`. -/
def gather (v : List ℚ) (p : List ℕ) : List ℚ :=
  p.filterMap (fun i => v[i]?)

/-- `DataFrame.take` along an indexer: the rows at the indexer's
positions. -/
def takeAlong (rows : List AnalysisRow) (idx : List ℕ) : List AnalysisRow :=
  idx.filterMap (fun i => rows[i]?)

/-- pandas's `nargsort` for `ascending=False`, `na_position='last'` and
no missing keys: the kernel argsort of the reversed keys, composed with
the reversed index range, reversed. -/
def nargsortDesc (keys : List ℚ) : List ℕ :=
  descIndexer keys.length (npArgsort keys.reverse)

/-- The ranking step `sort_values('profit_percentage_temp',
ascending=False)` with the default `quicksort` kernel. -/
def rankResults (rows : List AnalysisRow) : List AnalysisRow :=
  takeAlong rows (nargsortDesc (rows.map sortKey))

/-! ### `extract_listings` (src/scraper/donedeal_scraper.py)

The Selenium session is modelled as a pure function from the page number
(page `n` is the URL with `start = 30 * n`) to the outcome of loading
that page: a timeout of the results container, or the list of listing
card elements found.  Each element carries its optional sub-elements;  a
missing sub-element (`NoSuchElementException`) is `none`.  The `while
True` loop is a step function iterated on fuel; a `none` run result
means the fuel was exhausted before the loop hit one of its `break`s. -/

/-- One `li a` card element: the optional title and price sub-element
texts, the texts of the `MetaInfoItem` sub-elements, and the optional
`href` attribute. -/
structure PageElem where
  titleText : Option String
  priceText : Option String
  metaTexts : List String
  href : Option String

/-- Outcome of loading one search result page. -/
inductive PageLoad where
  | timeout
  | elems (es : List PageElem)

/-- The page navigator: what each requested page yields. -/
def Driver : Type := ℕ → PageLoad

/-- One scraped listing record. -/
structure Listing where
  title : String
  price : String
  location : String
  url : String
deriving DecidableEq

/-- Title extraction with the `"N/A"` fallback. -/
def elemTitle (e : PageElem) : String :=
  e.titleText.getD "N/A"

/-- Price extraction with the `"N/A"` fallback. -/
def elemPrice (e : PageElem) : String :=
  e.priceText.getD "N/A"

/-- Location: the second `MetaInfoItem` text when present, else
`"N/A"`. -/
def elemLocation (e : PageElem) : String :=
  if h : 1 < e.metaTexts.length then e.metaTexts.get ⟨1, h⟩ else "N/A"

/-- The canonical absolute URL: `https://www.donedeal.ie` is prepended to
a relative href; a missing or empty href becomes `"N/A"`. -/
def elemUrl (e : PageElem) : String :=
  match e.href with
  | none => "N/A"
  | some l =>
    match l.data with
    | [] => "N/A"
    | c :: _ => if c = '/' then "https://www.donedeal.ie" ++ l else l

/-- The listing record built from one element. -/
def mkListing (e : PageElem) : Listing :=
  { title := elemTitle e, price := elemPrice e, location := elemLocation e, url := elemUrl e }

/-- The inner `for element in listing_elements` loop: accumulate the
listings and seen URLs, counting the fresh URLs of this page. -/
def processElems (es : List PageElem) (listings : List Listing) (seenUrls : List String)
    (newCount : ℕ) : List Listing × List String × ℕ :=
  match es with
  | [] => (listings, seenUrls, newCount)
  | e :: rest =>
    if elemUrl e ∈ seenUrls then processElems rest listings seenUrls newCount
    else processElems rest (listings ++ [mkListing e]) (elemUrl e :: seenUrls) (newCount + 1)

/-- The loop state: listings and seen URLs so far, the next page number,
and the pages requested so far (`driver.get` calls, in order). -/
structure ScrapeState where
  listings : List Listing
  seenUrls : List String
  pageNum : ℕ
  requested : List ℕ

/-- Result of one pass through the `while True` body: a `break` with the
final listings and the request log, or the state for the next page. -/
inductive StepOut where
  | done (out : List Listing) (requested : List ℕ)
  | next (s : ScrapeState)

/-- Has the configured page cap been reached? -/
def capReached (maxPages : Option ℕ) (pageNum : ℕ) : Bool :=
  match maxPages with
  | none => false
  | some n => pageNum ≥ n

/-- One pass through the `while True` body of `extract_listings`: check
the cap, request the page, break on timeout, an empty element list, or a
page with no fresh URL; otherwise advance to the next page. -/
def scrapeStep (d : Driver) (maxPages : Option ℕ) (s : ScrapeState) : StepOut :=
  if capReached maxPages s.pageNum then .done s.listings s.requested
  else
    match d s.pageNum with
    | .timeout => .done s.listings (s.requested ++ [s.pageNum])
    | .elems es =>
      if es.isEmpty then .done s.listings (s.requested ++ [s.pageNum])
      else
        let p := processElems es s.listings s.seenUrls 0
        if p.2.2 = 0 then .done p.1 (s.requested ++ [s.pageNum])
        else .next ⟨p.1, p.2.1, s.pageNum + 1, s.requested ++ [s.pageNum]⟩

/-- Iterate `scrapeStep` on fuel; `none` when the fuel runs out before
the loop breaks. -/
def scrapeRun (d : Driver) (maxPages : Option ℕ) : ℕ → ScrapeState → Option (List Listing × List ℕ)
  | 0, _ => none
  | f + 1, s =>
    match scrapeStep d maxPages s with
    | .done out req => some (out, req)
    | .next s2 => scrapeRun d maxPages f s2

/-- `extract_listings(driver, keyword, max_pages)`: run the loop from the
empty state.  The keyword only selects the URLs the driver serves, so it
is absorbed into the driver function. -/
def extract_listings (d : Driver) (maxPages : Option ℕ) (fuel : ℕ) :
    Option (List Listing × List ℕ) :=
  scrapeRun d maxPages fuel ⟨[], [], 0, []⟩

/-- No two adjacent literal spaces occur in the list. -/
def noTwoSpaces (l : List Char) : Prop :=
  l.Chain' (fun a b => ¬(a = ' ' ∧ b = ' '))

/-! ### Auxiliary definitions for the statements below -/

/-- Shape of one numeric bound of a ranged price: a nonempty digit run,
optionally followed by a dot and further digits (the shape matched by
`(\d+\.?\d*)`). -/
def numLit (xs : List Char) : Bool :=
  match xs with
  | [] => false
  | c :: _ =>
    c.isDigit &&
      ((xs.dropWhile Char.isDigit).isEmpty ||
        (decide ((xs.dropWhile Char.isDigit).headD ' ' = '.') &&
          (xs.dropWhile Char.isDigit).tail.all Char.isDigit))

/-- The rational value of a `numLit` string. -/
def numValQ (xs : List Char) : ℚ :=
  if (xs.dropWhile Char.isDigit).isEmpty then (digitsVal (xs.takeWhile Char.isDigit) : ℚ)
  else ratOfParts (xs.takeWhile Char.isDigit) ((xs.dropWhile Char.isDigit).tail)

/-- The currency prefixes of the ranged-price claim: one of the three
symbols of the conversion table, or nothing. -/
def currencyPrefixes : List String :=
  ["€", "$", "£", ""]

/-- An aggregate with source mean 100, for the worked example of the
evaluator claim. -/
def c1Item : ProductAggregate :=
  { search_term := "iphone 13", representative_title := "iPhone 13"
    avg_donedeal_price := 100, min_donedeal_price := 90, max_donedeal_price := 110
    listing_count := 3, location := "Dublin", url := "https://www.donedeal.ie/x/1" }

/-- One sale of 150 in the reference currency. -/
def c1Sale : SoldListing :=
  { title := "iPhone 13", price := 150, currency := "€" }

/-- One sale of 150.005 in the reference currency: its profit over a mean
of 100 is 50.005, which does not survive rounding to two decimals. -/
def c1BadSale : SoldListing :=
  { title := "iPhone 13", price := 30001 / 200, currency := "€" }

/-- An aggregate whose source mean 4/3 is not representable with two
decimal digits. -/
def c5Item : ProductAggregate :=
  { search_term := "iphone 13", representative_title := "iPhone 13"
    avg_donedeal_price := 4 / 3, min_donedeal_price := 1, max_donedeal_price := 2
    listing_count := 3, location := "Dublin", url := "https://www.donedeal.ie/x/1" }

/-- A listing row for the deduplication counterexample. -/
def c10A : ListingRow :=
  { title := "x", price := "€1", location := "Dublin", url := "u" }

/-- A second row sharing `c10A`'s URL but with a different title. -/
def c10B : ListingRow :=
  { title := "y", price := "€2", location := "Cork", url := "u" }

/-- A third row with a fresh URL whose cleaned title equals `c10B`'s. -/
def c10C : ListingRow :=
  { title := " Y ", price := "€3", location := "Galway", url := "v" }

/-- An analysis row with the given title and profit percentage and
neutral remaining fields, for the ranking claims. -/
def c4Row (name : String) (pct : Option ℚ) : AnalysisRow :=
  { item_title := name, search_term := ""
    donedeal_avg_price := 0, donedeal_min_price := 0, donedeal_max_price := 0
    donedeal_listings := 0, donedeal_location := "", donedeal_url := ""
    ebay_avg_price_eur := none, ebay_min_price_eur := none, ebay_max_price_eur := none
    ebay_sold_count := 0, profit_potential_eur := none, profit_percentage := pct
    opportunity_level := "" }

/-- Seventeen analysis rows with one and the same profit percentage:
one more row than `SMALL_QUICKSORT + 1`, so the kernel partitions the
range once before its insertion-sort path takes over. -/
def c4Ties : List AnalysisRow :=
  [c4Row "P01" (some 5), c4Row "P02" (some 5), c4Row "P03" (some 5),
   c4Row "P04" (some 5), c4Row "P05" (some 5), c4Row "P06" (some 5),
   c4Row "P07" (some 5), c4Row "P08" (some 5), c4Row "P09" (some 5),
   c4Row "P10" (some 5), c4Row "P11" (some 5), c4Row "P12" (some 5),
   c4Row "P13" (some 5), c4Row "P14" (some 5), c4Row "P15" (some 5),
   c4Row "P16" (some 5), c4Row "P17" (some 5)]

/-- A card element with a relative href. -/
def c6Elem1 : PageElem :=
  { titleText := some "iPhone 13", priceText := some "€400", metaTexts := ["ad", "Dublin"]
    href := some "/iphone-13/1" }

/-- A second card element carrying the same href as `c6Elem1`. -/
def c6Elem2 : PageElem :=
  { titleText := some "iPhone 13 again", priceText := some "€410", metaTexts := []
    href := some "/iphone-13/1" }

/-- A driver whose first page repeats one URL twice and whose later pages
time out. -/
def c6Driver : Driver :=
  fun n => if n = 0 then PageLoad.elems [c6Elem1, c6Elem2] else PageLoad.timeout

/-- A driver that always times out. -/
def c7Driver : Driver :=
  fun _ => PageLoad.timeout

/-! ## Theorems -/

theorem clean_price_of_token {s : String} (h : isFloatToken (cleanPriceRemainder s) = true) :
    clean_price s = some (floatTokenVal (cleanPriceRemainder s)) := by
  have hne : (cleanPriceRemainder s).isEmpty = false := by
    cases hr : cleanPriceRemainder s with
    | nil => rw [hr] at h; exact absurd h (by decide)
    | cons c rest => rfl
  simp [clean_price, hne, pyFloat?, h]

theorem clean_price_of_not_token {s : String} (h : isFloatToken (cleanPriceRemainder s) = false) :
    clean_price s = none := by
  by_cases he : (cleanPriceRemainder s).isEmpty = true
  · simp [clean_price, he]
  · simp only [Bool.not_eq_true] at he
    simp [clean_price, he, pyFloat?, h]

/-- C8: for the title `"  IPHONE case  "` the relevance filter rejects, no
matter which search keyword it is evaluated under: either the keyword is
not a substring of the lowercased title, or the general accessory
exclusion pattern matches `case` with word boundaries and rejects the
listing before any keyword-specific rule is consulted. -/
theorem claim_C8 (kw : String) :
    is_relevant_listing "  IPHONE case  " kw get_exclusion_patterns = false := by
  rw [is_relevant_listing]
  by_cases hk : kw.data.isEmpty = true
  · simp [hk]
  · simp only [Bool.not_eq_true] at hk
    rw [show ("  IPHONE case  ").data.isEmpty = false from rfl, hk]
    rw [if_neg (by simp)]
    cases hc : containsSub (kw.data.map Char.toLower) (("  IPHONE case  ").data.map Char.toLower) with
    | false => simp
    | true =>
      rw [if_neg (by simp)]
      rw [show (get_exclusion_patterns.any
        (fun g => groupMatches g (("  IPHONE case  ").data.map Char.toLower))) = true from by decide]
      rw [if_pos rfl]

/-- C2: `clean_price` returns the value of the numeric token left after
stripping the currency symbols `€ $ £`, the comma thousands separators
and the alphabetic characters — whenever that stripped remainder is a
well-formed numeric token (the claim's "at least one numeric token and no
ambiguity") — and returns `none`, never `0`, whenever the remainder is
empty or not a numeric token.  In particular `"€1,250.00"` parses to
`1250`, `"$99"` to `99`, and `"abc"` is unparseable. -/
theorem claim_C2 :
    (∀ s : String, isFloatToken (cleanPriceRemainder s) = true →
      clean_price s = some (floatTokenVal (cleanPriceRemainder s))) ∧
    (∀ s : String, isFloatToken (cleanPriceRemainder s) = false → clean_price s = none) ∧
    clean_price "€1,250.00" = some 1250 ∧
    clean_price "$99" = some 99 ∧
    clean_price "abc" = none := by
  refine ⟨fun s h => clean_price_of_token h, fun s h => clean_price_of_not_token h, ?_, ?_, by decide⟩
  · rw [@clean_price_of_token "€1,250.00" (by decide),
      show cleanPriceRemainder "€1,250.00" = ['1', '2', '5', '0', '.', '0', '0'] from by decide]
    show some (ratOfParts ['1', '2', '5', '0'] ['0', '0']) = some 1250
    rw [ratOfParts, show digitsVal ['1', '2', '5', '0'] = 1250 from rfl,
      show digitsVal ['0', '0'] = 0 from rfl]
    norm_num
  · rw [@clean_price_of_token "$99" (by decide),
      show cleanPriceRemainder "$99" = ['9', '9'] from by decide]
    show some (ratOfParts ['9', '9'] []) = some 99
    rw [ratOfParts, show digitsVal ['9', '9'] = 99 from rfl, show digitsVal [] = 0 from rfl]
    norm_num

theorem claim_C2_witness :
    isFloatToken (cleanPriceRemainder "€1,250.00") = true ∧
    clean_price "€1,250.00" = some (floatTokenVal (cleanPriceRemainder "€1,250.00")) :=
  ⟨by decide, claim_C2.1 "€1,250.00" (by decide)⟩

/-- C3 fails as stated for the listing-side parser: `clean_price` keeps
the two spaces of `" to "` after deleting the letters, so the remainder
`"99  120"` of the ranged string `"€99 to €120"` is not a float literal
and the parser reports unparseable instead of the lower bound `99`. -/
theorem claim_C3_counterexample :
    clean_price "€99 to €120" = none ∧ clean_price "€99 to €120" ≠ some 99 :=
  ⟨by decide, by decide⟩

/-- C1 as stated fails on the stored row: the emitted `profit_potential_eur`
column is `round(mean − m, 2)`, not `mean − m` itself.  With source mean
100 and one reference-currency sale of 150.005 the mean minus the source
mean is 50.005, but the stored profit amount is 50. -/
theorem claim_C1_counterexample :
    (analyzeItem c1Item [c1BadSale]).profit_potential_eur = some 50 ∧
    listMean (eurPrices [c1BadSale]) - c1Item.avg_donedeal_price = 10001 / 200 ∧
    (50 : ℚ) ≠ 10001 / 200 := by
  have hc : conversionRate "€" = 1 := rfl
  have hp : listMean (eurPrices [c1BadSale]) - c1Item.avg_donedeal_price = 10001 / 200 := by
    simp only [eurPrices, listMean, listSum, c1BadSale, c1Item, hc, List.map, List.foldl,
      List.length]
    norm_num
  have hf : ⌊(10001 : ℚ) / 200 * 10 ^ 2⌋ = 5000 := by norm_num [Int.floor_eq_iff]
  have hr : pyRound (10001 / 200) 2 = 50 := by
    rw [pyRound, halfEven, hf]
    norm_num
  refine ⟨?_, hp, by norm_num⟩
  have hprof : profitPotential c1Item [c1BadSale] = 10001 / 200 := hp
  simp [analyzeItem, hprof, hr]

/-- C1, amended for rounding: for a positive source mean and a nonempty
sale list, the evaluator stores `round(mean − m, 2)` as the profit
amount and `round((mean − m)/m·100, 1)` as the profit percentage (`0`
instead of the quotient when `m` is not positive), converts each sale at
the static rates `£ ↦ 1.15`, `$ ↦ 0.85`, `€ ↦ 1` with unknown symbols at
`1`, and picks the tier from the unrounded percentage by the descending
thresholds 50/25/10; the worked example (mean 100, one sale of 150 in
the reference currency) yields exactly profit 50, percentage 50.0 and
the highest tier. -/
theorem claim_C1_amended :
    (∀ (item : ProductAggregate) (sold : List SoldListing), sold ≠ [] →
      (analyzeItem item sold).profit_potential_eur
          = some (pyRound (listMean (eurPrices sold) - item.avg_donedeal_price) 2) ∧
      (analyzeItem item sold).profit_percentage
          = some (pyRound (if item.avg_donedeal_price > 0 then
              (listMean (eurPrices sold) - item.avg_donedeal_price) / item.avg_donedeal_price * 100
            else 0) 1) ∧
      (analyzeItem item sold).opportunity_level = opportunityLevel (profitPercentage item sold) ∧
      (analyzeItem item sold).ebay_avg_price_eur = some (pyRound (listMean (eurPrices sold)) 2) ∧
      (analyzeItem item sold).ebay_sold_count = sold.length) ∧
    conversionRate "£" = 23 / 20 ∧ conversionRate "$" = 17 / 20 ∧ conversionRate "€" = 1 ∧
    (∀ c : String, c ≠ "£" → c ≠ "$" → c ≠ "€" → conversionRate c = 1) ∧
    (∀ p : ℚ, (50 ≤ p → opportunityLevel p = "🟢 EXCELLENT") ∧
      (25 ≤ p → p < 50 → opportunityLevel p = "🟡 GOOD") ∧
      (10 ≤ p → p < 25 → opportunityLevel p = "🟠 MODERATE") ∧
      (p < 10 → opportunityLevel p = "🔴 LOW")) ∧
    ((analyzeItem c1Item [c1Sale]).profit_potential_eur = some 50 ∧
      (analyzeItem c1Item [c1Sale]).profit_percentage = some 50 ∧
      (analyzeItem c1Item [c1Sale]).opportunity_level = "🟢 EXCELLENT") := by
  refine ⟨?_, rfl, rfl, rfl, ?_, ?_, ?_⟩
  · intro item sold h
    cases sold with
    | nil => exact absurd rfl h
    | cons a rest =>
      refine ⟨rfl, ?_, rfl, rfl, rfl⟩
      rfl
  · intro c h1 h2 h3
    simp [conversionRate, conversion_rates, List.find?, Ne.symm h1, Ne.symm h2, Ne.symm h3]
  · intro p
    refine ⟨fun h => ?_, fun h1 h2 => ?_, fun h1 h2 => ?_, fun h => ?_⟩
    · rw [opportunityLevel, if_pos h]
    · rw [opportunityLevel, if_neg (by linarith), if_pos h1]
    · rw [opportunityLevel, if_neg (by linarith), if_neg (by linarith), if_pos h1]
    · rw [opportunityLevel, if_neg (by linarith), if_neg (by linarith), if_neg (by linarith)]
  · have hc : conversionRate "€" = 1 := rfl
    have hp : profitPotential c1Item [c1Sale] = 50 := by
      simp only [profitPotential, eurPrices, listMean, listSum, c1Item, c1Sale, hc, List.map,
        List.foldl, List.length]
      norm_num
    have hq : profitPercentage c1Item [c1Sale] = 50 := by
      rw [profitPercentage, hp]
      norm_num [c1Item]
    have hr : pyRound 50 2 = 50 := by
      have hf : ⌊(50 : ℚ) * 10 ^ 2⌋ = 5000 := by norm_num
      rw [pyRound, halfEven, hf]
      norm_num
    have hr1 : pyRound 50 1 = 50 := by
      have hf : ⌊(50 : ℚ) * 10 ^ 1⌋ = 500 := by norm_num
      rw [pyRound, halfEven, hf]
      norm_num
    refine ⟨?_, ?_, ?_⟩ <;> simp [analyzeItem, hp, hq, hr, hr1, opportunityLevel]

theorem claim_C1_witness :
    (analyzeItem c1Item [c1Sale]).profit_potential_eur
        = some (pyRound (listMean (eurPrices [c1Sale]) - c1Item.avg_donedeal_price) 2) ∧
    (analyzeItem c1Item [c1Sale]).profit_percentage
        = some (pyRound (if c1Item.avg_donedeal_price > 0 then
            (listMean (eurPrices [c1Sale]) - c1Item.avg_donedeal_price)
              / c1Item.avg_donedeal_price * 100
          else 0) 1) ∧
    (analyzeItem c1Item [c1Sale]).opportunity_level
        = opportunityLevel (profitPercentage c1Item [c1Sale]) ∧
    (analyzeItem c1Item [c1Sale]).ebay_avg_price_eur
        = some (pyRound (listMean (eurPrices [c1Sale])) 2) ∧
    (analyzeItem c1Item [c1Sale]).ebay_sold_count = [c1Sale].length :=
  claim_C1_amended.1 c1Item [c1Sale] (by simp)

/-- C5 as stated fails on the source statistics: the no-data row stores
`round(avg, 2)`, not the unchanged aggregate mean.  An aggregate mean of
4/3 is stored as 1.33. -/
theorem claim_C5_counterexample :
    (analyzeItem c5Item []).donedeal_avg_price = 133 / 100 ∧
    c5Item.avg_donedeal_price = 4 / 3 ∧ (133 / 100 : ℚ) ≠ 4 / 3 := by
  have hf : ⌊(4 : ℚ) / 3 * 10 ^ 2⌋ = 133 := by norm_num [Int.floor_eq_iff]
  have hr : pyRound (4 / 3) 2 = 133 / 100 := by
    rw [pyRound, halfEven, hf]
    norm_num
  refine ⟨?_, rfl, by norm_num⟩
  show pyRound c5Item.avg_donedeal_price 2 = 133 / 100
  rw [show c5Item.avg_donedeal_price = 4 / 3 from rfl, hr]

/-- C5, amended for rounding: with zero sale records the evaluator still
emits exactly one total (error-free) row whose external statistics and
profit fields are all absent, whose sold count is 0, whose tier is the
no-data label, and whose source statistics are the aggregate's values —
the count, location, URL and title unchanged, the three prices rounded
to two decimals. -/
theorem claim_C5_amended (item : ProductAggregate) :
    (analyzeItem item []).ebay_avg_price_eur = none ∧
    (analyzeItem item []).ebay_min_price_eur = none ∧
    (analyzeItem item []).ebay_max_price_eur = none ∧
    (analyzeItem item []).ebay_sold_count = 0 ∧
    (analyzeItem item []).profit_potential_eur = none ∧
    (analyzeItem item []).profit_percentage = none ∧
    (analyzeItem item []).opportunity_level = "❌ NO DATA" ∧
    (analyzeItem item []).item_title = item.representative_title ∧
    (analyzeItem item []).search_term = item.search_term ∧
    (analyzeItem item []).donedeal_avg_price = pyRound item.avg_donedeal_price 2 ∧
    (analyzeItem item []).donedeal_min_price = pyRound item.min_donedeal_price 2 ∧
    (analyzeItem item []).donedeal_max_price = pyRound item.max_donedeal_price 2 ∧
    (analyzeItem item []).donedeal_listings = item.listing_count ∧
    (analyzeItem item []).donedeal_location = item.location ∧
    (analyzeItem item []).donedeal_url = item.url :=
  ⟨rfl, rfl, rfl, rfl, rfl, rfl, rfl, rfl, rfl, rfl, rfl, rfl, rfl, rfl, rfl⟩

theorem dedupByKeyAux_sublist (key : ListingRow → String) :
    ∀ (rows : List ListingRow) (seen : List String), List.Sublist (dedupByKeyAux key seen rows) rows := by
  intro rows
  induction rows with
  | nil => intro seen; exact List.Sublist.refl _
  | cons r rest ih =>
    intro seen
    rw [dedupByKeyAux]
    by_cases h : key r ∈ seen
    · rw [if_pos h]; exact (ih seen).cons r
    · rw [if_neg h]; exact (ih _).cons₂ r

theorem dedupByKeyAux_not_seen (key : ListingRow → String) :
    ∀ (rows : List ListingRow) (seen : List String) (r : ListingRow),
      r ∈ dedupByKeyAux key seen rows → key r ∉ seen := by
  intro rows
  induction rows with
  | nil => intro seen r hr; exact absurd hr (by simp [dedupByKeyAux])
  | cons x rest ih =>
    intro seen r hr
    rw [dedupByKeyAux] at hr
    by_cases h : key x ∈ seen
    · rw [if_pos h] at hr; exact ih seen r hr
    · rw [if_neg h] at hr
      rcases List.mem_cons.mp hr with h1 | h1
      · rw [h1]; exact h
      · intro hc
        exact ih _ r h1 (List.mem_cons_of_mem _ hc)

theorem dedupByKeyAux_pairwise (key : ListingRow → String) :
    ∀ (rows : List ListingRow) (seen : List String),
      (dedupByKeyAux key seen rows).Pairwise (fun a b => key a ≠ key b) := by
  intro rows
  induction rows with
  | nil => intro seen; simp [dedupByKeyAux]
  | cons x rest ih =>
    intro seen
    rw [dedupByKeyAux]
    by_cases h : key x ∈ seen
    · rw [if_pos h]; exact ih seen
    · rw [if_neg h]
      refine List.Pairwise.cons (fun b hb => ?_) (ih _)
      have := dedupByKeyAux_not_seen key rest (key x :: seen) b hb
      intro he
      exact this (he ▸ List.mem_cons_self _ _)

theorem dedupByKeyAux_congr (key : ListingRow → String) :
    ∀ (rows : List ListingRow) (s1 s2 : List String),
      (∀ r ∈ rows, key r ∈ s1 ↔ key r ∈ s2) →
      dedupByKeyAux key s1 rows = dedupByKeyAux key s2 rows := by
  intro rows
  induction rows with
  | nil => intro s1 s2 _; rfl
  | cons x rest ih =>
    intro s1 s2 hiff
    rw [dedupByKeyAux, dedupByKeyAux]
    by_cases h : key x ∈ s1
    · rw [if_pos h, if_pos ((hiff x (List.mem_cons_self _ _)).mp h)]
      exact ih s1 s2 (fun r hr => hiff r (List.mem_cons_of_mem _ hr))
    · rw [if_neg h, if_neg (fun hc => h ((hiff x (List.mem_cons_self _ _)).mpr hc))]
      refine congrArg (x :: ·) (ih _ _ (fun r hr => ?_))
      simp only [List.mem_cons]
      exact or_congr Iff.rfl (hiff r (List.mem_cons_of_mem _ hr))

theorem dedupByKeyAux_filter (key : ListingRow → String) :
    ∀ (rows : List ListingRow) (seen : List String) (x : String),
      dedupByKeyAux key (x :: seen) rows
        = dedupByKeyAux key seen (rows.filter (fun r => !(decide (key r = x)))) := by
  intro rows
  induction rows with
  | nil => intro seen x; rfl
  | cons r rest ih =>
    intro seen x
    by_cases hx : key r = x
    · rw [dedupByKeyAux, if_pos (by rw [hx]; exact List.mem_cons_self _ _)]
      rw [List.filter_cons, show (!(decide (key r = x))) = false by simp [hx]]
      simp only [Bool.false_eq_true, if_false]
      exact ih seen x
    · rw [dedupByKeyAux, List.filter_cons, show (!(decide (key r = x))) = true by simp [hx]]
      simp only [if_true]
      rw [dedupByKeyAux]
      by_cases hs : key r ∈ seen
      · rw [if_pos (List.mem_cons_of_mem _ hs), if_pos hs]
        exact ih seen x
      · rw [if_neg (by simp [hx, hs]), if_neg hs]
        refine congrArg (r :: ·) ?_
        rw [show (key r :: x :: seen) = [key r] ++ (x :: seen) from rfl]
        calc dedupByKeyAux key (key r :: x :: seen) rest
            = dedupByKeyAux key (x :: key r :: seen) rest := by
              refine dedupByKeyAux_congr key rest _ _ (fun q hq => ?_)
              simp only [List.mem_cons]
              tauto
          _ = dedupByKeyAux key (key r :: seen) (rest.filter (fun q => !(decide (key q = x)))) :=
              ih (key r :: seen) x

theorem dedupByKey_cons (key : ListingRow → String) (r : ListingRow) (rows : List ListingRow) :
    dedupByKey key (r :: rows)
      = r :: dedupByKey key (rows.filter (fun x => !(decide (key x = key r)))) := by
  rw [dedupByKey, dedupByKeyAux, if_neg (List.not_mem_nil _)]
  rw [dedupByKeyAux_filter key rows [] (key r)]
  rfl

theorem dedupByKey_of_pairwise (key : ListingRow → String) :
    ∀ (rows : List ListingRow) (seen : List String),
      rows.Pairwise (fun a b => key a ≠ key b) → (∀ r ∈ rows, key r ∉ seen) →
      dedupByKeyAux key seen rows = rows := by
  intro rows
  induction rows with
  | nil => intro seen _ _; rfl
  | cons r rest ih =>
    intro seen hpw hnot
    rw [dedupByKeyAux, if_neg (hnot r (List.mem_cons_self _ _))]
    refine congrArg (r :: ·) (ih _ (List.Pairwise.sublist (List.sublist_cons_self _ _) hpw) ?_)
    intro q hq
    simp only [List.mem_cons]
    rintro (h1 | h1)
    · exact (List.rel_of_pairwise_cons hpw hq) h1.symm
    · exact hnot q (List.mem_cons_of_mem _ hq) h1

/-- C10 as stated fails because the title deduplication runs after the URL
deduplication: here `c10B` is the first-occurring listing of its
cleaned-title group and has a URL different from `c10C`'s, yet it is the
one dropped (its URL collided with the earlier `c10A`) and the later
`c10C` survives. -/
theorem claim_C10_counterexample :
    titleClean c10B = titleClean c10C ∧ c10B.url ≠ c10C.url ∧
    remove_duplicates [c10A, c10B, c10C] = [c10A, c10C] ∧
    c10B ∉ remove_duplicates [c10A, c10B, c10C] :=
  ⟨by decide, by decide, by decide, by decide⟩

/-- C10, amended for the interleaving with the URL stage: the cleaning
stage deduplicates by URL and then by lowercased-stripped title, each
stage keeping the first occurrence of its key among its own input;
consequently the output carries pairwise distinct cleaned titles (distinct
listings of one product collapse), and on inputs whose URLs are already
pairwise distinct the composite keeps exactly the first-occurring listing
of every cleaned-title group, as claimed. -/
theorem claim_C10_amended :
    (∀ rows : List ListingRow,
      remove_duplicates rows = dedupByKey titleClean (dedupByKey (fun r => r.url) rows)) ∧
    (∀ (r : ListingRow) (rows : List ListingRow),
      dedupByKey titleClean (r :: rows)
        = r :: dedupByKey titleClean (rows.filter (fun x => !(decide (titleClean x = titleClean r))))) ∧
    (∀ rows : List ListingRow, List.Sublist (remove_duplicates rows) rows) ∧
    (∀ rows : List ListingRow,
      (remove_duplicates rows).Pairwise (fun a b => titleClean a ≠ titleClean b)) ∧
    (∀ rows : List ListingRow, rows.Pairwise (fun a b => a.url ≠ b.url) →
      remove_duplicates rows = dedupByKey titleClean rows) := by
  refine ⟨fun rows => rfl, fun r rows => dedupByKey_cons titleClean r rows, fun rows => ?_,
    fun rows => dedupByKeyAux_pairwise titleClean _ [], fun rows hpw => ?_⟩
  · exact (dedupByKeyAux_sublist titleClean _ []).trans (dedupByKeyAux_sublist _ rows [])
  · show dedupByKey titleClean (dedupByKeyAux (fun r => r.url) [] rows) = dedupByKey titleClean rows
    rw [dedupByKey_of_pairwise (fun r => r.url) rows [] hpw (by simp)]

theorem claim_C10_witness :
    ([c10A, c10C] : List ListingRow).Pairwise (fun a b => a.url ≠ b.url) ∧
    remove_duplicates [c10A, c10C] = dedupByKey titleClean [c10A, c10C] :=
  ⟨by decide, claim_C10_amended.2.2.2.2 [c10A, c10C] (by decide)⟩

theorem processElems_allSeen (es : List PageElem) (listings : List Listing)
    (seen : List String) (n : ℕ) (h : ∀ e ∈ es, elemUrl e ∈ seen) :
    processElems es listings seen n = (listings, seen, n) := by
  induction es with
  | nil => rfl
  | cons e rest ih =>
    rw [processElems, if_pos (h e (List.mem_cons_self _ _))]
    exact ih (fun x hx => h x (List.mem_cons_of_mem _ hx))

theorem processElems_inv :
    ∀ (es : List PageElem) (listings : List Listing) (seen : List String) (n : ℕ),
      (listings.map Listing.url).Nodup → (∀ l ∈ listings, l.url ∈ seen) →
      ((processElems es listings seen n).1.map Listing.url).Nodup ∧
      (∀ l ∈ (processElems es listings seen n).1,
        l.url ∈ (processElems es listings seen n).2.1) := by
  intro es
  induction es with
  | nil => intro listings seen n h1 h2; exact ⟨h1, h2⟩
  | cons e rest ih =>
    intro listings seen n h1 h2
    rw [processElems]
    by_cases h : elemUrl e ∈ seen
    · rw [if_pos h]; exact ih listings seen n h1 h2
    · rw [if_neg h]
      refine ih _ _ _ ?_ ?_
      · rw [List.map_append]
        refine List.Nodup.append h1 (by simp) ?_
        intro u hu hu2
        simp only [List.map_cons, List.map_nil, List.mem_cons, List.not_mem_nil, or_false] at hu2
        obtain ⟨l, hl, hlu⟩ := List.mem_map.mp hu
        refine h ?_
        rw [show elemUrl e = l.url from by rw [hlu, hu2]; rfl]
        exact h2 l hl
      · intro l hl
        rcases List.mem_append.mp hl with h3 | h3
        · exact List.mem_cons_of_mem _ (h2 l h3)
        · simp only [List.mem_cons, List.not_mem_nil, or_false] at h3
          rw [h3]
          exact List.mem_cons_self _ _

theorem scrapeStep_done_inv {d : Driver} {mp : Option ℕ} {s : ScrapeState}
    {out : List Listing} {req : List ℕ}
    (h1 : (s.listings.map Listing.url).Nodup) (h2 : ∀ l ∈ s.listings, l.url ∈ s.seenUrls)
    (h : scrapeStep d mp s = .done out req) : (out.map Listing.url).Nodup := by
  simp only [scrapeStep] at h
  split at h
  · cases h; exact h1
  · split at h
    · cases h; exact h1
    · split at h
      · cases h; exact h1
      · split at h
        · cases h
          exact (processElems_inv _ s.listings s.seenUrls 0 h1 h2).1
        · exact StepOut.noConfusion h

theorem scrapeStep_next_inv {d : Driver} {mp : Option ℕ} {s s2 : ScrapeState}
    (h1 : (s.listings.map Listing.url).Nodup) (h2 : ∀ l ∈ s.listings, l.url ∈ s.seenUrls)
    (h : scrapeStep d mp s = .next s2) :
    (s2.listings.map Listing.url).Nodup ∧ (∀ l ∈ s2.listings, l.url ∈ s2.seenUrls) := by
  simp only [scrapeStep] at h
  split at h
  · exact StepOut.noConfusion h
  · split at h
    · exact StepOut.noConfusion h
    · split at h
      · exact StepOut.noConfusion h
      · split at h
        · exact StepOut.noConfusion h
        · cases h
          exact processElems_inv _ s.listings s.seenUrls 0 h1 h2

theorem scrapeRun_nodup (d : Driver) (mp : Option ℕ) :
    ∀ (f : ℕ) (s : ScrapeState) (out : List Listing) (req : List ℕ),
      (s.listings.map Listing.url).Nodup → (∀ l ∈ s.listings, l.url ∈ s.seenUrls) →
      scrapeRun d mp f s = some (out, req) → (out.map Listing.url).Nodup := by
  intro f
  induction f with
  | zero => intro s out req _ _ h; exact absurd h (by simp [scrapeRun])
  | succ f ih =>
    intro s out req h1 h2 h
    rw [scrapeRun] at h
    cases hstep : scrapeStep d mp s with
    | done o r =>
      rw [hstep] at h
      simp only [Option.some.injEq, Prod.mk.injEq] at h
      obtain ⟨rfl, rfl⟩ := h
      exact scrapeStep_done_inv h1 h2 hstep
    | next s2 =>
      rw [hstep] at h
      exact ih s2 out req (scrapeStep_next_inv h1 h2 hstep).1 (scrapeStep_next_inv h1 h2 hstep).2 h

/-- C6: whatever the driver serves, the keyword, the page cap, and the
point at which the loop stops, the returned listing records carry
pairwise distinct URLs — the seen-set deduplicates across the whole run,
within and across pages. -/
theorem claim_C6 (d : Driver) (maxPages : Option ℕ) (fuel : ℕ) (out : List Listing)
    (req : List ℕ) (h : extract_listings d maxPages fuel = some (out, req)) :
    (out.map Listing.url).Nodup :=
  scrapeRun_nodup d maxPages fuel ⟨[], [], 0, []⟩ out req (by simp) (by simp) h

theorem claim_C6_witness :
    extract_listings c6Driver none 3
      = some (([⟨"iPhone 13", "€400", "Dublin", "https://www.donedeal.ie/iphone-13/1"⟩] :
          List Listing), [0, 1]) ∧
    (([⟨"iPhone 13", "€400", "Dublin", "https://www.donedeal.ie/iphone-13/1"⟩] :
        List Listing).map Listing.url).Nodup :=
  ⟨by decide, claim_C6 c6Driver none 3
    [⟨"iPhone 13", "€400", "Dublin", "https://www.donedeal.ie/iphone-13/1"⟩] [0, 1] (by decide)⟩

theorem scrapeStep_req_len {d : Driver} {mp : Option ℕ} {s : ScrapeState}
    {out : List Listing} {req : List ℕ} (h : scrapeStep d mp s = .done out req) :
    req.length ≤ s.requested.length + 1 := by
  simp only [scrapeStep] at h
  split at h
  · cases h; omega
  · split at h
    · cases h; simp
    · split at h
      · cases h; simp
      · split at h
        · cases h; simp
        · exact StepOut.noConfusion h

theorem scrapeStep_next_shape {d : Driver} {mp : Option ℕ} {s s2 : ScrapeState}
    (h : scrapeStep d mp s = .next s2) :
    s2.pageNum = s.pageNum + 1 ∧ s2.requested.length = s.requested.length + 1 := by
  simp only [scrapeStep] at h
  split at h
  · exact StepOut.noConfusion h
  · split at h
    · exact StepOut.noConfusion h
    · split at h
      · exact StepOut.noConfusion h
      · split at h
        · exact StepOut.noConfusion h
        · cases h; simp

theorem scrapeRun_capped (d : Driver) (n : ℕ) :
    ∀ (f : ℕ) (s : ScrapeState), n ≤ s.pageNum + f →
      ∃ out req, scrapeRun d (some n) (f + 1) s = some (out, req) ∧
        req.length ≤ s.requested.length + (n - s.pageNum) := by
  intro f
  induction f with
  | zero =>
    intro s hn
    have hc : capReached (some n) s.pageNum = true := by
      simp only [capReached, decide_eq_true_eq]
      omega
    rw [scrapeRun, scrapeStep, if_pos hc]
    exact ⟨s.listings, s.requested, rfl, by omega⟩
  | succ f ih =>
    intro s hn
    by_cases hc : capReached (some n) s.pageNum = true
    · rw [scrapeRun, scrapeStep, if_pos hc]
      exact ⟨s.listings, s.requested, rfl, by omega⟩
    · have hlt : s.pageNum < n := by
        simp only [capReached, decide_eq_true_eq] at hc
        omega
      rw [scrapeRun]
      cases hstep : scrapeStep d (some n) s with
      | done o r =>
        refine ⟨o, r, rfl, ?_⟩
        have := scrapeStep_req_len hstep
        omega
      | next s2 =>
        obtain ⟨hpage, hreq⟩ := scrapeStep_next_shape hstep
        obtain ⟨o, r, hrun, hlen⟩ := ih s2 (by omega)
        exact ⟨o, r, hrun, by omega⟩

theorem scrapeRun_mono (d : Driver) (mp : Option ℕ) :
    ∀ (f : ℕ) (s : ScrapeState) (r : List Listing × List ℕ),
      scrapeRun d mp f s = some r → ∀ f2, f ≤ f2 → scrapeRun d mp f2 s = some r := by
  intro f
  induction f with
  | zero => intro s r h; exact absurd h (by simp [scrapeRun])
  | succ f ih =>
    intro s r h f2 hle
    cases f2 with
    | zero => omega
    | succ f2 =>
      rw [scrapeRun] at h ⊢
      cases hstep : scrapeStep d mp s with
      | done o q => rw [hstep] at h; exact h
      | next s2 => rw [hstep] at h; exact ih s2 r h f2 (by omega)

theorem scrapeStep_stop (d : Driver) (mp : Option ℕ) (s : ScrapeState)
    (hcap : capReached mp s.pageNum = false)
    (hstop : d s.pageNum = .timeout ∨ d s.pageNum = .elems [] ∨
      ∃ es, d s.pageNum = .elems es ∧ ∀ e ∈ es, elemUrl e ∈ s.seenUrls) :
    scrapeStep d mp s = .done s.listings (s.requested ++ [s.pageNum]) := by
  rw [scrapeStep, if_neg (by simp [hcap])]
  rcases hstop with h | h | ⟨es, h, hall⟩
  · rw [h]
  · rw [h]; rfl
  · rw [h]
    by_cases he : es.isEmpty = true
    · simp [he]
    · simp [he, processElems_allSeen es s.listings s.seenUrls 0 hall]

/-- C7: with a page cap `n` configured the loop terminates within `n + 1`
passes having requested at most `n` pages (and more fuel does not change
the outcome); and independently of any cap, a page whose results
container times out, whose card list is empty, or all of whose URLs were
already seen earlier in the run ends the loop at that page. -/
theorem claim_C7 :
    (∀ (d : Driver) (n : ℕ), ∃ out req,
        extract_listings d (some n) (n + 1) = some (out, req) ∧ req.length ≤ n ∧
        ∀ fuel, n + 1 ≤ fuel → extract_listings d (some n) fuel = some (out, req)) ∧
    (∀ (d : Driver) (mp : Option ℕ) (s : ScrapeState) (f : ℕ),
        capReached mp s.pageNum = false →
        (d s.pageNum = .timeout ∨ d s.pageNum = .elems [] ∨
          ∃ es, d s.pageNum = .elems es ∧ ∀ e ∈ es, elemUrl e ∈ s.seenUrls) →
        scrapeRun d mp (f + 1) s = some (s.listings, s.requested ++ [s.pageNum])) := by
  constructor
  · intro d n
    obtain ⟨out, req, hrun, hlen⟩ := scrapeRun_capped d n n ⟨[], [], 0, []⟩ (by omega)
    refine ⟨out, req, hrun, by simpa using hlen, fun fuel hf => ?_⟩
    exact scrapeRun_mono d (some n) (n + 1) _ _ hrun fuel hf
  · intro d mp s f hcap hstop
    rw [scrapeRun, scrapeStep_stop d mp s hcap hstop]

theorem claim_C7_witness :
    (∃ out req, extract_listings c7Driver (some 2) 3 = some (out, req) ∧ req.length ≤ 2 ∧
      ∀ fuel, 3 ≤ fuel → extract_listings c7Driver (some 2) fuel = some (out, req)) ∧
    scrapeRun c7Driver none 1 ⟨[], [], 0, []⟩ = some ([], [] ++ [0]) :=
  ⟨claim_C7.1 c7Driver 2, claim_C7.2 c7Driver none ⟨[], [], 0, []⟩ 0 (by decide) (Or.inl rfl)⟩


theorem filterMap_getElem_range {α : Type} (l : List α) :
    (List.range l.length).filterMap (fun i => l[i]?) = l := by
  induction l with
  | nil => rfl
  | cons x xs ih =>
    simp only [List.length_cons, List.range_succ_eq_map, List.filterMap_cons,
      List.getElem?_cons_zero, List.filterMap_map]
    have hcomp : ((fun i => (x :: xs)[i]?) ∘ Nat.succ) = fun i => xs[i]? := by
      funext i
      simp [Function.comp]
    rw [hcomp, ih]

theorem takeAlong_perm {rows : List AnalysisRow} {idx : List ℕ}
    (h : List.Perm idx (List.range rows.length)) :
    List.Perm (takeAlong rows idx) rows := by
  have h2 := List.Perm.filterMap (fun i => rows[i]?) h
  rw [filterMap_getElem_range] at h2
  rw [takeAlong]
  exact h2

theorem map_sub_range (n : ℕ) :
    (List.range n).map (fun i => n - 1 - i) = (List.range n).reverse := by
  conv_rhs => rw [List.range_eq_range', List.reverse_range']
  exact List.map_congr_left (fun i _ => by omega)

theorem descIndexer_perm {n : ℕ} {p : List ℕ} (h : List.Perm p (List.range n)) :
    List.Perm (descIndexer n p) (List.range n) := by
  rw [descIndexer]
  refine (List.reverse_perm _).trans ?_
  refine (h.map (fun i => n - 1 - i)).trans ?_
  rw [map_sub_range]
  exact List.reverse_perm _

theorem gather_cons {v : List ℚ} {i : ℕ} {q : ℚ} (rest : List ℕ) (h : v[i]? = some q) :
    gather v (i :: rest) = q :: gather v rest := by
  simp only [gather, List.filterMap_cons, h]

theorem takeAlong_map_sortKey (rows : List AnalysisRow) :
    ∀ p : List ℕ, (∀ i ∈ p, i < rows.length) →
      ((p.map (fun i => rows.length - 1 - i)).filterMap (fun i => rows[i]?)).map sortKey
        = gather ((rows.map sortKey).reverse) p := by
  intro p
  induction p with
  | nil => intro _; rfl
  | cons i rest ih =>
    intro hlt
    have hi : i < rows.length := hlt i (List.mem_cons_self _ _)
    have hrev : rows.length - 1 - i < rows.length := by omega
    cases hr : rows[rows.length - 1 - i]? with
    | none =>
      rw [List.getElem?_eq_getElem hrev] at hr
      exact absurd hr (by simp)
    | some r =>
      have hml : i < (rows.map sortKey).length := by
        rw [List.length_map]; exact hi
      have hk : ((rows.map sortKey).reverse)[i]? = some (sortKey r) := by
        rw [List.getElem?_reverse hml, List.getElem?_map, List.length_map, hr]
        rfl
      rw [List.map_cons]
      simp only [List.filterMap_cons, hr]
      rw [List.map_cons, gather_cons rest hk,
        ih (fun j hj => hlt j (List.mem_cons_of_mem _ hj))]

/-- C4, amended: the ranking runs pandas's descending path — reverse the
keys, argsort them with the numpy kernel, compose with the reversed index
range, reverse, and take the rows along the resulting indexer.  For every
input and every kernel result `p` meeting numpy's documented argsort
postcondition (an index permutation whose gathered key sequence is
ascending — the kernel itself, `aquicksort`, lives outside this
repository), the ranked output is a permutation of the input, is sorted
by the `-999`-filled profit percentage descending, and — because every
evaluator-produced percentage exceeds the sentinel — places every no-data
row strictly after every numeric row.  Tie order among equal percentages
is not part of the postcondition and the default kernel does not preserve
it (see the counterexample), so no discovery-order conjunct holds. -/
theorem claim_C4_amended (rows : List AnalysisRow) (p : List ℕ)
    (hnum : ∀ r ∈ rows, ∀ q : ℚ, r.profit_percentage = some q → -999 < q)
    (hp : List.Perm p (List.range rows.length))
    (hasc : (gather ((rows.map sortKey).reverse) p).Pairwise (fun a b => a ≤ b)) :
    List.Perm (takeAlong rows (descIndexer rows.length p)) rows ∧
    (takeAlong rows (descIndexer rows.length p)).Pairwise
      (fun a b => sortKey b ≤ sortKey a) ∧
    (takeAlong rows (descIndexer rows.length p)).Pairwise
      (fun a b => a.profit_percentage = none → b.profit_percentage = none) := by
  have hperm : List.Perm (takeAlong rows (descIndexer rows.length p)) rows :=
    takeAlong_perm (descIndexer_perm hp)
  have hlt : ∀ i ∈ p, i < rows.length := by
    intro i hi
    exact List.mem_range.mp (hp.subset hi)
  have hsorted : (takeAlong rows (descIndexer rows.length p)).Pairwise
      (fun a b => sortKey b ≤ sortKey a) := by
    rw [takeAlong, descIndexer, List.filterMap_reverse, List.pairwise_reverse]
    have hthis := hasc
    rw [← takeAlong_map_sortKey rows p hlt, List.pairwise_map] at hthis
    exact hthis.imp (fun h => h)
  refine ⟨hperm, hsorted, ?_⟩
  refine hsorted.imp_of_mem (fun ha hb hba hnone => ?_)
  rename_i a b
  cases hp2 : b.profit_percentage with
  | none => rfl
  | some q =>
    exfalso
    have hgt : -999 < q := hnum b (hperm.subset hb) q hp2
    simp only [sortKey, hnone, hp2, Option.getD_some, Option.getD_none] at hba
    linarith

/-- Witness for C4: three rows (one no-data, two numeric) ranked along
the indexer built from the kernel result `[2, 1, 0]`, which sorts the
reversed keys `[50, 10, -999]` ascending; the output is a permutation,
descending, with the no-data row last. -/
theorem claim_C4_witness :
    List.Perm
      (takeAlong [c4Row "A" none, c4Row "B" (some 10), c4Row "C" (some 50)]
        (descIndexer 3 [2, 1, 0]))
      [c4Row "A" none, c4Row "B" (some 10), c4Row "C" (some 50)] ∧
    (takeAlong [c4Row "A" none, c4Row "B" (some 10), c4Row "C" (some 50)]
        (descIndexer 3 [2, 1, 0])).Pairwise
      (fun a b => sortKey b ≤ sortKey a) ∧
    (takeAlong [c4Row "A" none, c4Row "B" (some 10), c4Row "C" (some 50)]
        (descIndexer 3 [2, 1, 0])).Pairwise
      (fun a b => a.profit_percentage = none → b.profit_percentage = none) :=
  claim_C4_amended [c4Row "A" none, c4Row "B" (some 10), c4Row "C" (some 50)] [2, 1, 0]
    (by
      intro r hr q hq
      simp only [List.mem_cons, List.not_mem_nil, or_false] at hr
      rcases hr with rfl | rfl | rfl
      · exact absurd hq (by simp [c4Row])
      · simp only [c4Row] at hq
        injection hq with hq2
        rw [← hq2]
        norm_num
      · simp only [c4Row] at hq
        injection hq with hq2
        rw [← hq2]
        norm_num)
    (by decide) (by decide)

set_option maxRecDepth 40000 in
/-- C4 counterexample: seventeen rows sharing one profit percentage do
not keep their discovery order.  The kernel's single partition pass swaps
tied indices across the range, so `rankResults` returns the rows in the
order `P01, P10, P16, P15, ..., P03, P17` — a permutation of the input
that differs from it, refuting the claim that results with equal
`profit_percentage` retain their input order. -/
theorem claim_C4_counterexample :
    (∀ r ∈ c4Ties, r.profit_percentage = some 5) ∧
    (rankResults c4Ties).map (fun r => r.item_title)
      = ["P01", "P10", "P16", "P15", "P14", "P13", "P12", "P11", "P09",
         "P02", "P08", "P07", "P06", "P05", "P04", "P03", "P17"] ∧
    (rankResults c4Ties).map (fun r => r.item_title)
      ≠ c4Ties.map (fun r => r.item_title) ∧
    List.Perm ((rankResults c4Ties).map (fun r => r.item_title))
      (c4Ties.map (fun r => r.item_title)) :=
  ⟨by decide, by decide, by decide, by decide⟩

theorem uint32_le_toNat {a b : UInt32} : a ≤ b ↔ a.toBitVec.toNat ≤ b.toBitVec.toNat := by
  rw [UInt32.le_def, BitVec.le_def]

theorem isDigit_ne {c d : Char} (h : c.isDigit = true) (hd : d.isDigit = false) : c ≠ d := by
  intro he
  rw [he, hd] at h
  exact absurd h (by decide)

theorem isAlpha_false_of_isDigit {c : Char} (h : c.isDigit = true) : c.isAlpha = false := by
  simp only [Char.isDigit, Bool.and_eq_true, decide_eq_true_eq] at h
  obtain ⟨ha, hb⟩ := h
  have ha2 : 48 ≤ c.val.toBitVec.toNat := by
    have := uint32_le_toNat.mp ha
    simpa using this
  have hb2 : c.val.toBitVec.toNat ≤ 57 := by
    have := uint32_le_toNat.mp hb
    simpa using this
  simp only [Char.isAlpha, Char.isUpper, Char.isLower, Bool.or_eq_false_iff,
    Bool.and_eq_false_iff]
  constructor
  · left
    simp only [decide_eq_false_iff_not]
    intro hc
    have := uint32_le_toNat.mp hc
    simp at this
    omega
  · left
    simp only [decide_eq_false_iff_not]
    intro hc
    have := uint32_le_toNat.mp hc
    simp at this
    omega

theorem pySpace_false_of_isDigit {c : Char} (h : c.isDigit = true) : pySpace c = false := by
  rw [pySpace]
  rw [decide_eq_false (isDigit_ne h (by decide) : c ≠ ' '),
    decide_eq_false (isDigit_ne h (by decide) : c ≠ '\t'),
    decide_eq_false (isDigit_ne h (by decide) : c ≠ '\n'),
    decide_eq_false (isDigit_ne h (by decide) : c ≠ '\r'),
    decide_eq_false (isDigit_ne h (by decide) : c ≠ '\x0b'),
    decide_eq_false (isDigit_ne h (by decide) : c ≠ '\x0c')]
  rfl

theorem ebayKeep {c : Char} (h : c.isDigit = true ∨ c = '.') :
    (!(c = '£' || c = '$' || c = '€' || c = ',' || pySpace c)) = true := by
  rcases h with h | rfl
  · rw [decide_eq_false (isDigit_ne h (by decide) : c ≠ '£'),
      decide_eq_false (isDigit_ne h (by decide) : c ≠ '$'),
      decide_eq_false (isDigit_ne h (by decide) : c ≠ '€'),
      decide_eq_false (isDigit_ne h (by decide) : c ≠ ','),
      pySpace_false_of_isDigit h]
    rfl
  · decide

theorem cleanCurrencyKeep {c : Char} (h : c.isDigit = true ∨ c = '.') :
    (!(c = '€' || c = '$' || c = '£' || c = ',')) = true := by
  rcases h with h | rfl
  · rw [decide_eq_false (isDigit_ne h (by decide) : c ≠ '€'),
      decide_eq_false (isDigit_ne h (by decide) : c ≠ '$'),
      decide_eq_false (isDigit_ne h (by decide) : c ≠ '£'),
      decide_eq_false (isDigit_ne h (by decide) : c ≠ ',')]
    rfl
  · decide

theorem cleanAlphaKeep {c : Char} (h : c.isDigit = true ∨ c = '.') : (!c.isAlpha) = true := by
  rcases h with h | rfl
  · rw [isAlpha_false_of_isDigit h]
    rfl
  · decide

theorem digitPartF_chars :
    ∀ (l : List Char) (b : Bool), digitPartF b l = true → ∀ c ∈ l, c.isDigit = true ∨ c = '_' := by
  intro l
  induction l with
  | nil => intro b _ c hc; exact absurd hc (List.not_mem_nil c)
  | cons c0 rest ih =>
    intro b h c hc
    rw [digitPartF] at h
    by_cases h0 : c0 = '_'
    · rw [if_pos h0] at h
      simp only [Bool.and_eq_true] at h
      rcases List.mem_cons.mp hc with rfl | hc2
      · exact Or.inr h0
      · exact ih true h.2 c hc2
    · rw [if_neg h0] at h
      simp only [Bool.and_eq_true] at h
      rcases List.mem_cons.mp hc with rfl | hc2
      · exact Or.inl h.1
      · exact ih false h.2 c hc2

theorem isDigitPart_chars {l : List Char} (h : isDigitPart l = true) :
    ∀ c ∈ l, c.isDigit = true ∨ c = '_' := by
  cases l with
  | nil => intro c hc; exact absurd hc (List.not_mem_nil c)
  | cons c0 rest =>
    have h1 : (c0.isDigit && digitPartF false rest) = true := h
    simp only [Bool.and_eq_true] at h1
    intro c hc
    rcases List.mem_cons.mp hc with rfl | hc2
    · exact Or.inl h1.1
    · exact digitPartF_chars rest false h1.2 c hc2

theorem isFloatBody_chars {l : List Char} (h : isFloatBody l = true) :
    ∀ c ∈ l, c.isDigit = true ∨ c = '.' ∨ c = '_' := by
  rw [isFloatBody] at h
  by_cases hdot : l.contains '.' = true
  · rw [if_pos hdot] at h
    simp only [Bool.and_eq_true, Bool.or_eq_true] at h
    obtain ⟨⟨⟨hbdot, ha2⟩, hb2⟩, hne⟩ := h
    intro c hc
    have hsplit : l.takeWhile (fun c => !(c = '.')) ++ l.dropWhile (fun c => !(c = '.')) = l :=
      List.takeWhile_append_dropWhile ..
    rw [← hsplit] at hc
    rcases List.mem_append.mp hc with hc1 | hc1
    · rcases ha2 with ha2 | ha2
      · rw [List.isEmpty_iff.mp ha2] at hc1
        exact absurd hc1 (List.not_mem_nil c)
      · rcases isDigitPart_chars ha2 c hc1 with h2 | h2
        · exact Or.inl h2
        · exact Or.inr (Or.inr h2)
    · cases hdw : l.dropWhile (fun c => !(c = '.')) with
      | nil =>
        rw [hdw] at hc1
        exact absurd hc1 (List.not_mem_nil c)
      | cons d t =>
        have hd : d = '.' := by
          have h3 := List.head?_dropWhile_not (fun c => !(c = '.')) l
          rw [hdw] at h3
          simpa using h3
        rw [hdw] at hc1
        rcases List.mem_cons.mp hc1 with rfl | hc2
        · exact Or.inr (Or.inl hd)
        · have hbt : (l.dropWhile (fun c => !(c = '.'))).tail = t := by rw [hdw]; rfl
          rw [hbt] at hb2
          rcases hb2 with hb2 | hb2
          · rw [List.isEmpty_iff.mp hb2] at hc2
            exact absurd hc2 (List.not_mem_nil c)
          · rcases isDigitPart_chars hb2 c hc2 with h2 | h2
            · exact Or.inl h2
            · exact Or.inr (Or.inr h2)
  · rw [if_neg hdot] at h
    intro c hc
    rcases isDigitPart_chars h c hc with h2 | h2
    · exact Or.inl h2
    · exact Or.inr (Or.inr h2)

theorem isFloatToken_chars {l : List Char} (h : isFloatToken l = true) :
    ∀ c ∈ l, c.isDigit = true ∨ c = '.' ∨ c = '_' ∨ c = '+' ∨ c = '-' := by
  intro c hc
  rw [isFloatToken.eq_def] at h
  split at h
  · rcases List.mem_cons.mp hc with rfl | hc2
    · exact Or.inr (Or.inr (Or.inr (Or.inl rfl)))
    · rcases isFloatBody_chars h c hc2 with h2 | h2 | h2
      · exact Or.inl h2
      · exact Or.inr (Or.inl h2)
      · exact Or.inr (Or.inr (Or.inl h2))
  · rcases List.mem_cons.mp hc with rfl | hc2
    · exact Or.inr (Or.inr (Or.inr (Or.inr rfl)))
    · rcases isFloatBody_chars h c hc2 with h2 | h2 | h2
      · exact Or.inl h2
      · exact Or.inr (Or.inl h2)
      · exact Or.inr (Or.inr (Or.inl h2))
  · rcases isFloatBody_chars h c hc with h2 | h2 | h2
    · exact Or.inl h2
    · exact Or.inr (Or.inl h2)
    · exact Or.inr (Or.inr (Or.inl h2))

theorem isFloatToken_false_of_space {l : List Char} (hsp : ' ' ∈ l) :
    isFloatToken l = false := by
  cases ht : isFloatToken l with
  | false => rfl
  | true =>
    exfalso
    rcases isFloatToken_chars ht ' ' hsp with h | h | h | h | h <;> exact absurd h (by decide)

theorem numLit_structure {xs : List Char} (h : numLit xs = true) :
    (xs ≠ [] ∧ ∀ c ∈ xs, c.isDigit = true) ∨
    ∃ ds fs, xs = ds ++ '.' :: fs ∧ ds ≠ [] ∧ (∀ c ∈ ds, c.isDigit = true) ∧
      (∀ c ∈ fs, c.isDigit = true) := by
  cases xs with
  | nil => exact absurd h (by decide)
  | cons c0 rest =>
    have h1 : (c0.isDigit &&
        (((c0 :: rest).dropWhile Char.isDigit).isEmpty ||
          (decide (((c0 :: rest).dropWhile Char.isDigit).headD ' ' = '.') &&
            ((c0 :: rest).dropWhile Char.isDigit).tail.all Char.isDigit))) = true := h
    simp only [Bool.and_eq_true, Bool.or_eq_true] at h1
    obtain ⟨h0, h2⟩ := h1
    have hsplit : (c0 :: rest).takeWhile Char.isDigit ++ (c0 :: rest).dropWhile Char.isDigit
        = c0 :: rest := List.takeWhile_append_dropWhile ..
    rcases h2 with he | hr
    · left
      refine ⟨List.cons_ne_nil c0 rest, fun c hc => ?_⟩
      rw [← hsplit, List.isEmpty_iff.mp he, List.append_nil] at hc
      exact List.mem_takeWhile_imp hc
    · obtain ⟨hh, ht⟩ := hr
      cases hdw : (c0 :: rest).dropWhile Char.isDigit with
      | nil =>
        rw [hdw] at hh
        exact absurd (decide_eq_true_eq.mp hh) (by decide)
      | cons d t =>
        rw [hdw] at hh ht
        have hd : d = '.' := by simpa using decide_eq_true_eq.mp hh
        right
        refine ⟨(c0 :: rest).takeWhile Char.isDigit, t, ?_, ?_, ?_, ?_⟩
        · rw [← hd]
          rw [← hdw]
          exact hsplit.symm
        · rw [List.takeWhile_cons_of_pos h0]
          exact List.cons_ne_nil _ _
        · exact fun c hc => List.mem_takeWhile_imp hc
        · intro c hc
          simpa using List.all_eq_true.mp ht c hc

theorem numLit_chars {xs : List Char} (h : numLit xs = true) :
    ∀ c ∈ xs, c.isDigit = true ∨ c = '.' := by
  intro c hc
  rcases numLit_structure h with ⟨_, hall⟩ | ⟨ds, fs, heq, _, hds, hfs⟩
  · exact Or.inl (hall c hc)
  · rw [heq] at hc
    rcases List.mem_append.mp hc with hc1 | hc1
    · exact Or.inl (hds c hc1)
    · rcases List.mem_cons.mp hc1 with rfl | hc2
      · exact Or.inr rfl
      · exact Or.inl (hfs c hc2)

theorem numLit_ne_nil {xs : List Char} (h : numLit xs = true) : xs ≠ [] := by
  cases xs with
  | nil => exact absurd h (by decide)
  | cons a t => exact List.cons_ne_nil a t

theorem numLit_head_digit {xs : List Char} (h : numLit xs = true) :
    ∀ c, xs.head? = some c → c.isDigit = true := by
  cases xs with
  | nil => exact absurd h (by decide)
  | cons c0 rest =>
    intro c hc
    have h1 : (c0.isDigit &&
        (((c0 :: rest).dropWhile Char.isDigit).isEmpty ||
          (decide (((c0 :: rest).dropWhile Char.isDigit).headD ' ' = '.') &&
            ((c0 :: rest).dropWhile Char.isDigit).tail.all Char.isDigit))) = true := h
    simp only [Bool.and_eq_true] at h1
    rw [show c = c0 from by simpa using hc.symm]
    exact h1.1

theorem dropWhile_eq_nil_of_all {p : Char → Bool} {l : List Char}
    (h : ∀ c ∈ l, p c = true) : l.dropWhile p = [] := by
  induction l with
  | nil => rfl
  | cons c rest ih =>
    rw [List.dropWhile_cons_of_pos (h c (List.mem_cons_self _ _))]
    exact ih (fun c hc => h c (List.mem_cons_of_mem _ hc))

theorem takeWhile_eq_self_of_all {p : Char → Bool} {l : List Char}
    (h : ∀ c ∈ l, p c = true) : l.takeWhile p = l := by
  induction l with
  | nil => rfl
  | cons c rest ih =>
    rw [List.takeWhile_cons_of_pos (h c (List.mem_cons_self _ _))]
    rw [ih (fun c hc => h c (List.mem_cons_of_mem _ hc))]

theorem containsSub_append (w : List Char) (hw : w ≠ []) :
    ∀ (a b : List Char), containsSub w (a ++ (w ++ b)) = true := by
  intro a
  induction a with
  | nil =>
    intro b
    rw [List.nil_append]
    cases w with
    | nil => exact absurd rfl hw
    | cons wc wrest =>
      rw [List.cons_append, containsSub]
      have hpre : ((wc :: wrest).isPrefixOf (wc :: (wrest ++ b))) = true := by
        rw [List.isPrefixOf_iff_prefix]
        exact ⟨b, by rw [List.cons_append]⟩
      rw [hpre, Bool.true_or]
  | cons c a2 ih =>
    intro b
    rw [List.cons_append, containsSub, ih b, Bool.or_true]

theorem takeUntilSub_to (xs ys : List Char) (hx : ∀ c ∈ xs, c.isDigit = true ∨ c = '.') :
    takeUntilSub ['t', 'o'] (xs ++ 't' :: 'o' :: ys) = xs := by
  induction xs with
  | nil =>
    rw [List.nil_append, takeUntilSub, if_pos]
    rw [List.isPrefixOf_iff_prefix]
    exact ⟨ys, rfl⟩
  | cons c xs2 ih =>
    have hc : c.isDigit = true ∨ c = '.' := hx c (List.mem_cons_self _ _)
    have hct : ('t' : Char) ≠ c := by
      rcases hc with hc | rfl
      · exact (isDigit_ne hc (by decide)).symm
      · decide
    rw [List.cons_append, takeUntilSub, if_neg]
    · rw [ih (fun q hq => hx q (List.mem_cons_of_mem _ hq))]
    · rw [List.isPrefixOf]
      simp only [Bool.and_eq_true, beq_iff_eq]
      rintro ⟨h1, _⟩
      exact hct h1

theorem firstNumber_numLit {xs : List Char} (h : numLit xs = true) :
    firstNumber xs = some (numValQ xs) := by
  have hhead : ∀ c, xs.head? = some c → c.isDigit = true := numLit_head_digit h
  rcases numLit_structure h with ⟨hne, hall⟩ | ⟨ds, fs, heq, hdne, hds, hfs⟩
  · cases xs with
    | nil => exact absurd rfl hne
    | cons c0 rest =>
      have h0 : c0.isDigit = true := hhead c0 rfl
      have hdw0 : (c0 :: rest).dropWhile (fun c => !c.isDigit) = c0 :: rest :=
        List.dropWhile_cons_of_neg (by simp [h0])
      have hdw1 : (c0 :: rest).dropWhile Char.isDigit = [] := dropWhile_eq_nil_of_all hall
      have htw : (c0 :: rest).takeWhile Char.isDigit = c0 :: rest := takeWhile_eq_self_of_all hall
      rw [firstNumber, hdw0]
      rw [numValQ, if_pos (by rw [hdw1]; rfl)]
      show (match (c0 :: rest).dropWhile Char.isDigit with
        | '.' :: r2 => some (ratOfParts ((c0 :: rest).takeWhile Char.isDigit)
            (r2.takeWhile Char.isDigit))
        | _ => some ((digitsVal ((c0 :: rest).takeWhile Char.isDigit) : ℚ)))
        = some ((digitsVal ((c0 :: rest).takeWhile Char.isDigit) : ℚ))
      rw [hdw1]
  · cases hds0 : ds with
    | nil => exact absurd hds0 hdne
    | cons d0 ds2 =>
      rw [hds0] at heq hds
      have hd0 : d0.isDigit = true := hds d0 (List.mem_cons_self _ _)
      have hxs : xs = d0 :: (ds2 ++ '.' :: fs) := by rw [heq]; rfl
      have hdw0 : xs.dropWhile (fun c => !c.isDigit) = xs := by
        rw [hxs]
        exact List.dropWhile_cons_of_neg (by simp [hd0])
      have hdw1 : xs.dropWhile Char.isDigit = '.' :: fs := by
        rw [heq, List.dropWhile_append_of_pos hds]
        exact List.dropWhile_cons_of_neg (by decide)
      have htw : xs.takeWhile Char.isDigit = d0 :: ds2 := by
        rw [heq, List.takeWhile_append_of_pos hds]
        rw [List.takeWhile_cons_of_neg (by decide), List.append_nil]
      have htwf : fs.takeWhile Char.isDigit = fs := takeWhile_eq_self_of_all hfs
      rw [firstNumber]
      rw [show xs.dropWhile (fun c => !c.isDigit) = d0 :: (ds2 ++ '.' :: fs) from by
        rw [hdw0, hxs]]
      show (match (d0 :: (ds2 ++ '.' :: fs)).dropWhile Char.isDigit with
        | '.' :: r2 => some (ratOfParts ((d0 :: (ds2 ++ '.' :: fs)).takeWhile Char.isDigit)
            (r2.takeWhile Char.isDigit))
        | _ => some ((digitsVal ((d0 :: (ds2 ++ '.' :: fs)).takeWhile Char.isDigit) : ℚ)))
        = some (numValQ xs)
      rw [show (d0 :: (ds2 ++ '.' :: fs)).dropWhile Char.isDigit = '.' :: fs from by
        rw [← hxs]
        exact hdw1]
      show some (ratOfParts ((d0 :: (ds2 ++ '.' :: fs)).takeWhile Char.isDigit)
          (fs.takeWhile Char.isDigit)) = some (numValQ xs)
      rw [show (d0 :: (ds2 ++ '.' :: fs)).takeWhile Char.isDigit = d0 :: ds2 from by
        rw [← hxs]
        exact htw]
      rw [htwf, numValQ, if_neg (by rw [hdw1]; simp), hdw1, htw]
      rfl

theorem pyStrip_eq_self_of {l : List Char}
    (h1 : ∀ c, l.head? = some c → pySpace c = false)
    (h2 : ∀ c, l.reverse.head? = some c → pySpace c = false) : pyStrip l = l := by
  rw [pyStrip]
  have hd : l.dropWhile pySpace = l := by
    cases l with
    | nil => rfl
    | cons c rest => exact List.dropWhile_cons_of_neg (by simp [h1 c rfl])
  rw [hd]
  have hd2 : l.reverse.dropWhile pySpace = l.reverse := by
    cases hr : l.reverse with
    | nil => rfl
    | cons c rest =>
      exact List.dropWhile_cons_of_neg (by simp [h2 c (by rw [hr]; rfl)])
  rw [hd2, List.reverse_reverse]

/-- C3, amended for the two parsers: for every ranged string
`X to Y` (each bound a digit run with optional decimal part, optionally
prefixed with one of the currency symbols), the sold-listing parser
`EbayScraper._clean_price` returns the lower bound `X`, while the
listing-side `clean_price` reports unparseable (`none`) for such
strings — the spaces around `to` survive its stripping and break the
`float` parse. -/
theorem claim_C3_amended :
    ∀ px py : String, px ∈ currencyPrefixes → py ∈ currencyPrefixes →
    ∀ xs ys : List Char, numLit xs = true → numLit ys = true →
      ebay_clean_price (px ++ String.mk xs ++ " to " ++ py ++ String.mk ys)
          = some (numValQ xs) ∧
      clean_price (px ++ String.mk xs ++ " to " ++ py ++ String.mk ys) = none := by
  intro px py hpx hpy xs ys hxs hys
  have hxc := numLit_chars hxs
  have hyc := numLit_chars hys
  have hxne := numLit_ne_nil hxs
  have hyne := numLit_ne_nil hys
  simp only [currencyPrefixes, List.mem_cons, List.mem_singleton, List.not_mem_nil,
    or_false] at hpx hpy
  have hdata : (px ++ String.mk xs ++ " to " ++ py ++ String.mk ys).data
      = px.data ++ xs ++ (' ' :: 't' :: 'o' :: ' ' :: []) ++ py.data ++ ys := by
    rw [String.data_append, String.data_append, String.data_append, String.data_append]
  constructor
  · have hpxf : px.data.filter
        (fun c => !(c = '£' || c = '$' || c = '€' || c = ',' || pySpace c)) = [] := by
      rcases hpx with rfl | rfl | rfl | rfl <;> decide
    have hpyf : py.data.filter
        (fun c => !(c = '£' || c = '$' || c = '€' || c = ',' || pySpace c)) = [] := by
      rcases hpy with rfl | rfl | rfl | rfl <;> decide
    have hxf : xs.filter
        (fun c => !(c = '£' || c = '$' || c = '€' || c = ',' || pySpace c)) = xs :=
      List.filter_eq_self.mpr (fun c hc => ebayKeep (hxc c hc))
    have hyf : ys.filter
        (fun c => !(c = '£' || c = '$' || c = '€' || c = ',' || pySpace c)) = ys :=
      List.filter_eq_self.mpr (fun c hc => ebayKeep (hyc c hc))
    have hfilter : (px ++ String.mk xs ++ " to " ++ py ++ String.mk ys).data.filter
        (fun c => !(c = '£' || c = '$' || c = '€' || c = ',' || pySpace c))
        = xs ++ 't' :: 'o' :: ys := by
      rw [hdata, List.filter_append, List.filter_append, List.filter_append,
        List.filter_append, hpxf, hpyf, hxf, hyf]
      rw [show ((' ' :: 't' :: 'o' :: ' ' :: []).filter
        (fun c => !(c = '£' || c = '$' || c = '€' || c = ',' || pySpace c))) = ['t', 'o']
        from by decide]
      simp
    unfold ebay_clean_price
    rw [hfilter]
    have hcontains : containsSub ['t', 'o'] ((xs ++ 't' :: 'o' :: ys).map Char.toLower)
        = true := by
      rw [List.map_append]
      rw [show ((('t' : Char) :: 'o' :: ys).map Char.toLower) = 't' :: 'o' :: ys.map Char.toLower
        from by rw [List.map_cons, List.map_cons]; rfl]
      exact containsSub_append ['t', 'o'] (by decide) (xs.map Char.toLower) (ys.map Char.toLower)
    rw [if_pos hcontains, takeUntilSub_to xs ys hxc, firstNumber_numLit hxs]
  · have hpxf : px.data.filter (fun c => !(c = '€' || c = '$' || c = '£' || c = ',')) = [] := by
      rcases hpx with rfl | rfl | rfl | rfl <;> decide
    have hpyf : py.data.filter (fun c => !(c = '€' || c = '$' || c = '£' || c = ',')) = [] := by
      rcases hpy with rfl | rfl | rfl | rfl <;> decide
    have hxf : xs.filter (fun c => !(c = '€' || c = '$' || c = '£' || c = ',')) = xs :=
      List.filter_eq_self.mpr (fun c hc => cleanCurrencyKeep (hxc c hc))
    have hyf : ys.filter (fun c => !(c = '€' || c = '$' || c = '£' || c = ',')) = ys :=
      List.filter_eq_self.mpr (fun c hc => cleanCurrencyKeep (hyc c hc))
    have hxf2 : xs.filter (fun c => !c.isAlpha) = xs :=
      List.filter_eq_self.mpr (fun c hc => cleanAlphaKeep (hxc c hc))
    have hyf2 : ys.filter (fun c => !c.isAlpha) = ys :=
      List.filter_eq_self.mpr (fun c hc => cleanAlphaKeep (hyc c hc))
    have hrem : cleanPriceRemainder (px ++ String.mk xs ++ " to " ++ py ++ String.mk ys)
        = xs ++ ' ' :: ' ' :: ys := by
      rw [cleanPriceRemainder, hdata]
      simp only [List.filter_append]
      rw [hpxf, hpyf, hxf, hyf, hxf2, hyf2]
      rw [show ((((' ' :: 't' :: 'o' :: ' ' :: []) : List Char).filter
        (fun c => !(c = '€' || c = '$' || c = '£' || c = ','))).filter (fun c => !c.isAlpha))
        = [' ', ' '] from by decide]
      simp only [List.filter_nil, List.nil_append, List.append_nil, List.append_assoc]
      show pyStrip (xs ++ ' ' :: ' ' :: ys) = xs ++ ' ' :: ' ' :: ys
      refine pyStrip_eq_self_of ?_ ?_
      · intro c hc
        cases hxs0 : xs with
        | nil => exact absurd hxs0 hxne
        | cons c0 rest =>
          rw [hxs0, List.cons_append, List.head?_cons] at hc
          have hc0 : c = c0 := by simpa using hc.symm
          rw [hc0]
          rw [hxs0] at hxs
          exact pySpace_false_of_isDigit (numLit_head_digit hxs c0 rfl)
      · intro c hc
        rw [List.reverse_append] at hc
        cases hyr : ys.reverse with
        | nil => exact absurd (by simpa using congrArg List.reverse hyr) hyne
        | cons yr t =>
          rw [show (' ' :: ' ' :: ys).reverse = yr :: (t ++ [' ', ' ']) from by
            rw [show (' ' :: ' ' :: ys : List Char) = [' ', ' '] ++ ys from rfl,
              List.reverse_append, hyr]
            rfl] at hc
          rw [List.cons_append, List.head?_cons] at hc
          have hcy : c = yr := by simpa using hc.symm
          have hyrm : yr ∈ ys := by
            rw [← List.mem_reverse, hyr]
            exact List.mem_cons_self _ _
          rw [hcy]
          rcases hyc yr hyrm with h | rfl
          · exact pySpace_false_of_isDigit h
          · decide
    have htok : isFloatToken
        (cleanPriceRemainder (px ++ String.mk xs ++ " to " ++ py ++ String.mk ys)) = false := by
      rw [hrem]
      exact isFloatToken_false_of_space (by simp)
    exact clean_price_of_not_token htok

theorem claim_C3_witness :
    ebay_clean_price ("€" ++ String.mk ['9', '9'] ++ " to " ++ "€" ++ String.mk ['1', '2', '0'])
        = some (numValQ ['9', '9']) ∧
    clean_price ("€" ++ String.mk ['9', '9'] ++ " to " ++ "€" ++ String.mk ['1', '2', '0'])
        = none :=
  claim_C3_amended "€" "€" (by decide) (by decide) ['9', '9'] ['1', '2', '0']
    (by decide) (by decide)

theorem strReplaceF_subset (w : List Char) :
    ∀ (f : ℕ) (s : List Char) (c : Char), c ∈ strReplaceF w f s → c ∈ s := by
  intro f
  induction f with
  | zero => intro s c hc; exact hc
  | succ f ih =>
    intro s c hc
    cases s with
    | nil => exact hc
    | cons a rest =>
      rw [strReplaceF] at hc
      by_cases hp : (!w.isEmpty && w.isPrefixOf (a :: rest)) = true
      · rw [if_pos hp] at hc
        have := ih _ c hc
        exact List.mem_cons_of_mem a (List.mem_of_mem_drop this)
      · rw [if_neg hp] at hc
        rcases List.mem_cons.mp hc with rfl | hc2
        · exact List.mem_cons_self _ _
        · exact List.mem_cons_of_mem a (ih rest c hc2)

theorem strReplaceF_noop (w : List Char) :
    ∀ (f : ℕ) (s : List Char), containsSub w s = false → strReplaceF w f s = s := by
  intro f
  induction f with
  | zero => intro s _; rfl
  | succ f ih =>
    intro s hs
    cases s with
    | nil => rfl
    | cons a rest =>
      rw [containsSub] at hs
      simp only [Bool.or_eq_false_iff] at hs
      rw [strReplaceF, if_neg (by simp [hs.1]), ih rest hs.2]

theorem strReplace_noop {w s : List Char} (h : containsSub w s = false) : strReplace w s = s :=
  strReplaceF_noop w s.length s h

theorem foldlReplace_subset (ws : List String) :
    ∀ (l : List Char) (c : Char),
      c ∈ ws.foldl (fun s w => strReplace w.data s) l → c ∈ l := by
  induction ws with
  | nil => intro l c hc; exact hc
  | cons w ws2 ih =>
    intro l c hc
    rw [List.foldl_cons] at hc
    exact strReplaceF_subset w.data _ l c (ih _ c hc)

theorem foldlReplace_noop {ws : List String} {l : List Char}
    (h : ∀ w ∈ ws, containsSub w.data l = false) :
    ws.foldl (fun s w => strReplace w.data s) l = l := by
  induction ws with
  | nil => rfl
  | cons w ws2 ih =>
    rw [List.foldl_cons, strReplace_noop (h w (List.mem_cons_self _ _))]
    exact ih (fun q hq => h q (List.mem_cons_of_mem _ hq))

theorem mem_collapseWSAux :
    ∀ (b : Bool) (l : List Char) (c : Char), c ∈ collapseWSAux b l → c = ' ' ∨ c ∈ l := by
  intro b l
  induction l generalizing b with
  | nil => intro c hc; exact absurd hc (List.not_mem_nil c)
  | cons a rest ih =>
    intro c hc
    rw [collapseWSAux] at hc
    by_cases ha : pySpace a = true
    · rw [if_pos ha] at hc
      by_cases hb : b = true
      · rw [if_pos hb] at hc
        rcases ih true c hc with h | h
        · exact Or.inl h
        · exact Or.inr (List.mem_cons_of_mem a h)
      · rw [if_neg hb] at hc
        rcases List.mem_cons.mp hc with rfl | hc2
        · exact Or.inl rfl
        · rcases ih true c hc2 with h | h
          · exact Or.inl h
          · exact Or.inr (List.mem_cons_of_mem a h)
    · rw [if_neg ha] at hc
      rcases List.mem_cons.mp hc with rfl | hc2
      · exact Or.inr (List.mem_cons_self _ _)
      · rcases ih false c hc2 with h | h
        · exact Or.inl h
        · exact Or.inr (List.mem_cons_of_mem a h)

theorem collapse_space_mem :
    ∀ (b : Bool) (l : List Char) (c : Char),
      c ∈ collapseWSAux b l → pySpace c = true → c = ' ' := by
  intro b l
  induction l generalizing b with
  | nil => intro c hc; exact absurd hc (List.not_mem_nil c)
  | cons a rest ih =>
    intro c hc hsp
    rw [collapseWSAux] at hc
    by_cases ha : pySpace a = true
    · rw [if_pos ha] at hc
      by_cases hb : b = true
      · rw [if_pos hb] at hc
        exact ih true c hc hsp
      · rw [if_neg hb] at hc
        rcases List.mem_cons.mp hc with rfl | hc2
        · rfl
        · exact ih true c hc2 hsp
    · rw [if_neg ha] at hc
      rcases List.mem_cons.mp hc with rfl | hc2
      · exact absurd hsp (by simp [ha])
      · exact ih false c hc2 hsp

theorem collapse_head_true :
    ∀ (l : List Char) (c : Char), (collapseWSAux true l).head? = some c → pySpace c = false := by
  intro l
  induction l with
  | nil => intro c hc; exact absurd hc (by simp [collapseWSAux])
  | cons a rest ih =>
    intro c hc
    rw [collapseWSAux] at hc
    by_cases ha : pySpace a = true
    · rw [if_pos ha, if_pos rfl] at hc
      exact ih c hc
    · rw [if_neg ha] at hc
      have : c = a := by simpa using hc.symm
      rw [this]
      simpa using ha

theorem collapse_noTwo : ∀ (b : Bool) (l : List Char), noTwoSpaces (collapseWSAux b l) := by
  intro b l
  induction l generalizing b with
  | nil => exact List.chain'_nil
  | cons a rest ih =>
    rw [collapseWSAux]
    by_cases ha : pySpace a = true
    · rw [if_pos ha]
      by_cases hb : b = true
      · rw [if_pos hb]; exact ih true
      · rw [if_neg hb]
        rw [noTwoSpaces, List.chain'_cons']
        refine ⟨fun h hh => ?_, ih true⟩
        rintro ⟨-, h2⟩
        have := collapse_head_true rest h hh
        rw [h2] at this
        exact absurd this (by decide)
    · rw [if_neg ha]
      rw [noTwoSpaces, List.chain'_cons']
      refine ⟨fun h hh => ?_, ih false⟩
      rintro ⟨h1, -⟩
      rw [h1] at ha
      exact ha (by decide)

theorem mem_pyStrip {l : List Char} {c : Char} (h : c ∈ pyStrip l) : c ∈ l := by
  rw [pyStrip] at h
  rw [List.mem_reverse] at h
  have h2 := List.dropWhile_subset pySpace h
  rw [List.mem_reverse] at h2
  exact List.dropWhile_subset pySpace h2

theorem noTwo_reverse {l : List Char} (h : noTwoSpaces l) : noTwoSpaces l.reverse := by
  rw [noTwoSpaces, List.chain'_reverse]
  exact h.imp (fun a b hab => by rintro ⟨h1, h2⟩; exact hab ⟨h2, h1⟩)

theorem noTwo_pyStrip {l : List Char} (h : noTwoSpaces l) : noTwoSpaces (pyStrip l) := by
  rw [pyStrip]
  refine noTwo_reverse (List.Chain'.suffix ?_ (List.dropWhile_suffix pySpace))
  exact noTwo_reverse (List.Chain'.suffix h (List.dropWhile_suffix pySpace))

theorem pyStrip_revhead (l : List Char) :
    ∀ c, (pyStrip l).reverse.head? = some c → pySpace c = false := by
  intro c hc
  rw [pyStrip, List.reverse_reverse] at hc
  have := List.head?_dropWhile_not pySpace (l.dropWhile pySpace).reverse
  rw [hc] at this
  exact this

theorem pyStrip_head (l : List Char) :
    ∀ c, (pyStrip l).head? = some c → pySpace c = false := by
  intro c hc
  rw [pyStrip] at hc
  have hsuf : List.IsSuffix ((l.dropWhile pySpace).reverse.dropWhile pySpace)
      (l.dropWhile pySpace).reverse := List.dropWhile_suffix pySpace
  obtain ⟨t, ht⟩ := hsuf
  have hA : ((l.dropWhile pySpace).reverse.dropWhile pySpace).reverse ++ t.reverse
      = l.dropWhile pySpace := by
    have h2 := congrArg List.reverse ht
    rw [List.reverse_append, List.reverse_reverse] at h2
    exact h2
  cases hB : ((l.dropWhile pySpace).reverse.dropWhile pySpace).reverse with
  | nil => rw [hB] at hc; exact absurd hc (by simp)
  | cons b rest =>
    rw [hB] at hc
    have hbc : b = c := by simpa using hc
    rw [hB] at hA
    have hhead : (l.dropWhile pySpace).head? = some c := by
      rw [← hA, List.cons_append, List.head?_cons, hbc]
    have hm := List.head?_dropWhile_not pySpace l
    rw [hhead] at hm
    exact hm

theorem map_eq_self_of {f : Char → Char} {l : List Char} (h : ∀ c ∈ l, f c = c) :
    l.map f = l := by
  induction l with
  | nil => rfl
  | cons a rest ih =>
    rw [List.map_cons, h a (List.mem_cons_self _ _),
      ih (fun c hc => h c (List.mem_cons_of_mem _ hc))]

theorem toLower_toLower (c : Char) : (c.toLower).toLower = c.toLower := by
  unfold Char.toLower
  by_cases h : c.toNat ≥ 65 ∧ c.toNat ≤ 90
  · rw [if_pos h]
    have hv : (c.toNat + 32).isValidChar := by
      left
      have := h.2
      omega
    have ht : (Char.ofNat (c.toNat + 32)).toNat = c.toNat + 32 := by
      rw [Char.ofNat, dif_pos hv]
      simp [Char.ofNatAux, Char.toNat, UInt32.toNat, BitVec.ofNatLt]
    rw [if_neg]
    rw [ht]
    omega
  · rw [if_neg h, if_neg h]

theorem collapse_id :
    ∀ (l : List Char), (∀ c ∈ l, pySpace c = true → c = ' ') → noTwoSpaces l →
      collapseWSAux false l = l ∧
        (∀ c, l.head? = some c → pySpace c = false → collapseWSAux true l = l) := by
  intro l
  induction l with
  | nil => intro _ _; exact ⟨rfl, fun c hc _ => absurd hc (by simp)⟩
  | cons a rest ih =>
    intro hsp hnt
    have hsp2 : ∀ c ∈ rest, pySpace c = true → c = ' ' :=
      fun c hc => hsp c (List.mem_cons_of_mem a hc)
    have hnt2 : noTwoSpaces rest := List.Chain'.tail hnt
    obtain ⟨ihf, iht⟩ := ih hsp2 hnt2
    by_cases ha : pySpace a = true
    · have ha2 : a = ' ' := hsp a (List.mem_cons_self _ _) ha
      constructor
      · rw [collapseWSAux, if_pos ha, if_neg Bool.false_ne_true, ha2]
        congr 1
        cases hr : rest with
        | nil => rfl
        | cons b rs =>
          rw [hr] at hnt iht
          have hab := (List.chain'_cons.mp hnt).1
          have hbna : b ≠ ' ' := fun hbe => hab ⟨ha2, hbe⟩
          have hbns : pySpace b = false := by
            cases hpb : pySpace b
            · rfl
            · exact absurd (hsp2 b (by rw [hr]; exact List.mem_cons_self _ _) hpb) hbna
          exact iht b rfl hbns
      · intro c hc hcf
        have hca : c = a := by simpa using hc.symm
        rw [hca, ha] at hcf
        exact Bool.noConfusion hcf
    · constructor
      · rw [collapseWSAux, if_neg ha, ihf]
      · intro c _ _
        rw [collapseWSAux, if_neg ha, ihf]

theorem normalizeCore_chars (t : String) :
    ∀ c ∈ normalizeCore t, c.toLower = c ∧ (wordChar c || pySpace c) = true := by
  intro c hc
  rw [normalizeCore] at hc
  have hc2 := mem_pyStrip hc
  rcases mem_collapseWSAux false _ c hc2 with rfl | hc3
  · exact ⟨by decide, by decide⟩
  · rw [List.mem_map] at hc3
    obtain ⟨d, hd, hdc⟩ := hc3
    have hd2 := foldlReplace_subset noiseWords _ d hd
    rw [List.mem_map] at hd2
    obtain ⟨e, _, hed⟩ := hd2
    by_cases hw : (wordChar d || pySpace d) = true
    · rw [if_pos hw] at hdc
      subst hdc
      refine ⟨?_, hw⟩
      rw [← hed]
      exact toLower_toLower e
    · rw [if_neg hw] at hdc
      subst hdc
      exact ⟨by decide, by decide⟩

theorem colorStrip_mem (t : String) {c : Char} (hc : c ∈ colorStrip (normalizeCore t)) :
    c = ' ' ∨ c ∈ normalizeCore t := by
  rw [colorStrip] at hc
  have hc2 := mem_pyStrip hc
  rcases mem_collapseWSAux false _ c hc2 with rfl | hc3
  · exact Or.inl rfl
  · exact Or.inr (foldlReplace_subset colors _ c hc3)

theorem normalizeCore_fix {l : List Char}
    (hlow : ∀ c ∈ l, c.toLower = c)
    (hwsp : ∀ c ∈ l, (wordChar c || pySpace c) = true)
    (hspc : ∀ c ∈ l, pySpace c = true → c = ' ')
    (hnt : noTwoSpaces l)
    (hhd : ∀ c, l.head? = some c → pySpace c = false)
    (hlast : ∀ c, l.reverse.head? = some c → pySpace c = false)
    (hnoise : ∀ w ∈ noiseWords, containsSub w.data l = false) :
    normalizeCore (String.mk l) = l := by
  rw [normalizeCore]
  have h1 : (String.mk l).data = l := rfl
  rw [h1, map_eq_self_of hlow, foldlReplace_noop hnoise,
    @map_eq_self_of (fun c => if wordChar c || pySpace c then c else ' ') l
      (fun c hc => if_pos (hwsp c hc))]
  have h4 : collapseWS l = l := (collapse_id l hspc hnt).1
  rw [h4]
  exact pyStrip_eq_self_of hhd hlast

theorem colorStrip_fix {l : List Char}
    (hspc : ∀ c ∈ l, pySpace c = true → c = ' ')
    (hnt : noTwoSpaces l)
    (hhd : ∀ c, l.head? = some c → pySpace c = false)
    (hlast : ∀ c, l.reverse.head? = some c → pySpace c = false)
    (hcolor : ∀ w ∈ colors, containsSub w.data l = false) :
    colorStrip l = l := by
  rw [colorStrip, foldlReplace_noop hcolor]
  have h4 : collapseWS l = l := (collapse_id l hspc hnt).1
  rw [h4]
  exact pyStrip_eq_self_of hhd hlast

theorem dropWhile_all_false {p : Char → Bool} :
    ∀ {l : List Char}, (∀ c ∈ l, p c = false) → l.dropWhile p = l := by
  intro l h
  cases l with
  | nil => rfl
  | cons a t => exact List.dropWhile_cons_of_neg (by simp [h a (List.mem_cons_self _ _)])

theorem pyStrip_append_prefix (w x : List Char) (hw : ∀ c ∈ w, pySpace c = false)
    (hne : w ≠ []) : ∃ y, pyStrip (w ++ x) = w ++ y := by
  rw [pyStrip]
  have hd : (w ++ x).dropWhile pySpace = w ++ x := by
    cases w with
    | nil => exact absurd rfl hne
    | cons a wt =>
      rw [List.cons_append]
      exact List.dropWhile_cons_of_neg (by simp [hw a (List.mem_cons_self _ _)])
  rw [hd, List.reverse_append, List.dropWhile_append]
  by_cases hx : (x.reverse.dropWhile pySpace).isEmpty = true
  · rw [if_pos hx, dropWhile_all_false (fun c hc => hw c (List.mem_reverse.mp hc))]
    exact ⟨[], by rw [List.reverse_reverse, List.append_nil]⟩
  · rw [if_neg hx]
    exact ⟨(x.reverse.dropWhile pySpace).reverse, by
      rw [List.reverse_append, List.reverse_reverse]⟩

theorem containsSub_of_prefix {w l y : List Char} (h : l = w ++ y) (hne : w ≠ []) :
    containsSub w l = true := by
  subst h
  cases w with
  | nil => exact absurd rfl hne
  | cons a wt =>
    rw [List.cons_append, containsSub]
    have hp : (a :: wt).isPrefixOf ((a :: wt) ++ y) = true := by
      rw [List.isPrefixOf_iff_prefix]
      exact ⟨y, rfl⟩
    rw [List.cons_append] at hp
    rw [hp, Bool.true_or]

theorem iphone_assoc (B M : List Char) :
    ['i', 'p', 'h', 'o', 'n', 'e', ' '] ++ B ++ [' '] ++ M
      = ['i', 'p', 'h', 'o', 'n', 'e'] ++ (' ' :: (B ++ (' ' :: M))) := by
  rw [List.append_assoc, List.append_assoc]
  rfl

theorem normalize_fix_aux {r : String}
    (hmem : ∀ c ∈ r.data, c.toLower = c ∧ (wordChar c || pySpace c) = true)
    (hspc : ∀ c ∈ r.data, pySpace c = true → c = ' ')
    (hnt : noTwoSpaces r.data)
    (hhd : ∀ c, r.data.head? = some c → pySpace c = false)
    (hlast : ∀ c, r.data.reverse.head? = some c → pySpace c = false)
    (hnoise2 : ∀ w ∈ noiseWords, containsSub w.data r.data = false)
    (hcolor2 : ∀ w ∈ colors, containsSub w.data r.data = false)
    (hiph2 : containsSub ['i', 'p', 'h', 'o', 'n', 'e'] r.data = false) :
    normalize_product_name r = r := by
  obtain ⟨l⟩ := r
  have hmem2 : ∀ c ∈ l, c.toLower = c ∧ (wordChar c || pySpace c) = true := hmem
  have hspc2 : ∀ c ∈ l, pySpace c = true → c = ' ' := hspc
  have hnt2 : noTwoSpaces l := hnt
  have hhd2 : ∀ c, l.head? = some c → pySpace c = false := hhd
  have hlast2 : ∀ c, l.reverse.head? = some c → pySpace c = false := hlast
  have hnoise3 : ∀ w ∈ noiseWords, containsSub w.data l = false := hnoise2
  have hcolor3 : ∀ w ∈ colors, containsSub w.data l = false := hcolor2
  have hiph3 : containsSub ['i', 'p', 'h', 'o', 'n', 'e'] l = false := hiph2
  by_cases hmE : l.isEmpty = true
  · have hl : l = [] := List.isEmpty_iff.mp hmE
    subst hl
    decide
  · have hcore : normalizeCore (String.mk l) = l :=
      normalizeCore_fix (fun c hc => (hmem2 c hc).1) (fun c hc => (hmem2 c hc).2)
        hspc2 hnt2 hhd2 hlast2 hnoise3
    have hmE2 : ¬((String.mk l).data.isEmpty = true) := hmE
    rw [normalize_product_name, if_neg hmE2, hcore, if_neg (by simp [hiph3]),
      colorStrip_fix hspc2 hnt2 hhd2 hlast2 hcolor3]

theorem stripWS_spc (X : List Char) :
    ∀ c ∈ pyStrip (collapseWS X), pySpace c = true → c = ' ' := by
  intro c hc hcs
  rw [collapseWS] at hc
  exact collapse_space_mem false X c (mem_pyStrip hc) hcs

theorem stripWS_noTwo (X : List Char) : noTwoSpaces (pyStrip (collapseWS X)) := by
  rw [collapseWS]
  exact noTwo_pyStrip (collapse_noTwo false X)

theorem stripWS_hd (X : List Char) :
    ∀ c, (pyStrip (collapseWS X)).head? = some c → pySpace c = false :=
  fun c hc => pyStrip_head (collapseWS X) c hc

theorem stripWS_last (X : List Char) :
    ∀ c, (pyStrip (collapseWS X)).reverse.head? = some c → pySpace c = false :=
  fun c hc => pyStrip_revhead (collapseWS X) c hc

theorem normalize_fix_of_colorStrip {t : String}
    (hd : (normalize_product_name t).data = colorStrip (normalizeCore t))
    (hnoise : ∀ w ∈ noiseWords, containsSub w.data (normalize_product_name t).data = false)
    (hcolor : ∀ w ∈ colors, containsSub w.data (normalize_product_name t).data = false)
    (hiph : containsSub ['i', 'p', 'h', 'o', 'n', 'e'] (normalize_product_name t).data = false) :
    normalize_product_name (normalize_product_name t) = normalize_product_name t := by
  obtain ⟨F, hF⟩ : ∃ F, colors.foldl (fun s w => strReplace w.data s) (normalizeCore t) = F :=
    ⟨_, rfl⟩
  have hCS : colorStrip (normalizeCore t) = pyStrip (collapseWS F) := by
    rw [colorStrip, hF]
  rw [hCS] at hd
  have hmemB : ∀ c ∈ pyStrip (collapseWS F),
      c.toLower = c ∧ (wordChar c || pySpace c) = true := by
    rw [← hCS]
    intro c hc
    rcases colorStrip_mem t hc with rfl | hc2
    · exact ⟨by decide, by decide⟩
    · exact normalizeCore_chars t c hc2
  refine normalize_fix_aux ?_ ?_ ?_ ?_ ?_ hnoise hcolor hiph
  · rw [hd]; exact hmemB
  · rw [hd]; exact stripWS_spc F
  · rw [hd]; exact stripWS_noTwo F
  · rw [hd]; exact stripWS_hd F
  · rw [hd]; exact stripWS_last F

/-- C9 counterexample: `normalize_product_name` is not idempotent. On the
title `"nnewew"` one pass removes the inner noise word `new` leaving the
word `new`, and a second pass removes that too, so the second application
changes the result. -/
theorem claim_C9_counterexample :
    normalize_product_name "nnewew" = "new" ∧
    normalize_product_name (normalize_product_name "nnewew") = "" ∧
    normalize_product_name (normalize_product_name "nnewew") ≠
      normalize_product_name "nnewew" :=
  ⟨by decide, by decide, by decide⟩

/-- C9, amended: `normalize_product_name` is idempotent on every title
whose normalized form contains no noise word, no color word and no
occurrence of `iphone` as a substring; on such titles a second
application returns its input unchanged. -/
theorem claim_C9_amended (t : String)
    (hnoise : ∀ w ∈ noiseWords, containsSub w.data (normalize_product_name t).data = false)
    (hcolor : ∀ w ∈ colors, containsSub w.data (normalize_product_name t).data = false)
    (hiph : containsSub ['i', 'p', 'h', 'o', 'n', 'e'] (normalize_product_name t).data = false) :
    normalize_product_name (normalize_product_name t) = normalize_product_name t := by
  by_cases h0 : t.data.isEmpty = true
  · have hr : normalize_product_name t = "" := by
      rw [normalize_product_name, if_pos h0]
    rw [hr]
    decide
  · by_cases hiC : containsSub ['i', 'p', 'h', 'o', 'n', 'e'] (normalizeCore t) = true
    · cases hms : iphoneSearch (normalizeCore t) with
      | none =>
        have hd : (normalize_product_name t).data = colorStrip (normalizeCore t) := by
          rw [normalize_product_name, if_neg h0, if_pos hiC, hms]
        exact normalize_fix_of_colorStrip hd hnoise hcolor hiph
      | some m =>
        exfalso
        have hd2 : (normalize_product_name t).data
            = pyStrip (['i', 'p', 'h', 'o', 'n', 'e', ' '] ++ pyStrip m.1 ++ [' '] ++ m.2) := by
          rw [normalize_product_name, if_neg h0, if_pos hiC, hms]
        rw [iphone_assoc] at hd2
        obtain ⟨y, hy⟩ := pyStrip_append_prefix ['i', 'p', 'h', 'o', 'n', 'e']
          (' ' :: (pyStrip m.1 ++ (' ' :: m.2))) (by decide) (by decide)
        rw [hy] at hd2
        have htrue : containsSub ['i', 'p', 'h', 'o', 'n', 'e']
            (['i', 'p', 'h', 'o', 'n', 'e'] ++ y) = true :=
          containsSub_of_prefix rfl (by decide)
        rw [hd2, htrue] at hiph
        exact Bool.noConfusion hiph
    · have hd : (normalize_product_name t).data = colorStrip (normalizeCore t) := by
        rw [normalize_product_name, if_neg h0, if_neg hiC]
      exact normalize_fix_of_colorStrip hd hnoise hcolor hiph

/-- Witness for C9: the title `"Samsung Galaxy S21"` normalizes to
`"samsung galaxy s21"`, which contains no noise word, color word or
`iphone`, and a second application leaves it unchanged. -/
theorem claim_C9_witness :
    normalize_product_name (normalize_product_name "Samsung Galaxy S21")
      = normalize_product_name "Samsung Galaxy S21" :=
  claim_C9_amended "Samsung Galaxy S21" (by decide) (by decide) (by decide)

end ProfitBot
